import Mathlib

/-!
Verification development for the tightdb/realm-core snapshot.

Part 1 models the query-building layer of `src/query/QueryInterface.h`:
the `Query` class accumulates a chain of AND-connected condition nodes
(`UpdatePointers` appends each new node to the chain), and the typed
accessors `XQueryAccessorInt` / `XQueryAccessorString` forward to the
`Query` methods.  The `Or`/parenthesis machinery of the source is not
needed by any property below and is not modelled; a `Query` here is the
plain conjunction chain.  The semantics of the individual condition
nodes (EQUAL, GREATER, LESS, STRINGNODE...) live in `QueryEngine.h`,
which is not part of this snapshot; `evalCond` gives them their
documented meaning (value comparison on the addressed column).

Part 2 models `ColumnMixed::GetType` of `src/tightdb/column_mixed.cpp`.

Part 3 models the replication / changeset subsystem (recorder, parser,
applier, cascade engine) from the specification; its implementation is
not part of this snapshot, only its test suite `test/test_replication.cpp`.
-/

namespace TightDB

/-- Value of `LLONG_MIN` for the 64-bit `int64_t` used by the query layer. -/
def LLONG_MIN : Int := -9223372036854775808

/-- Value of `LLONG_MAX` for the 64-bit `int64_t` used by the query layer. -/
def LLONG_MAX : Int := 9223372036854775807

/-- String comparison flavours of `STRINGNODE`: case sensitive and the
`_INS` (case insensitive) variants, as selected by the `caseSensitive`
argument of the `Query` string methods. -/
inductive StrOp where
  | equal | equalIns
  | beginsWithOp | beginsWithIns
  | endsWithOp | endsWithIns
  | containsOp | containsIns
  | notEqual | notEqualIns
  deriving DecidableEq, Repr

/-- One condition node of a query, as built by the `Query` methods of
`QueryInterface.h`: an integer comparison `NODE<int64_t, Column, OP>`, a
boolean equality node, or a `STRINGNODE<OP>`. -/
inductive QueryCond where
  | intEqual (column_id : Nat) (value : Int)
  | intNotEqual (column_id : Nat) (value : Int)
  | intGreater (column_id : Nat) (value : Int)
  | intLess (column_id : Nat) (value : Int)
  | boolEqual (column_id : Nat) (value : Bool)
  | strNode (op : StrOp) (column_id : Nat) (value : String)
  deriving DecidableEq, Repr

/-- A query: the AND-chain of condition nodes built through
`UpdatePointers`, in the order the `Query` methods were invoked. -/
structure Query where
  nodes : List QueryCond
  deriving DecidableEq, Repr

/-- A fresh query with no condition (`first[0] == 0` in the source). -/
def Query.empty : Query := ⟨[]⟩

/-- Row as seen by the query layer: each column holds an integer, a
boolean and a string slot; a condition node only reads the slot of its
own type at its column id. -/
structure QRow where
  ints : Nat → Int
  bools : Nat → Bool
  strs : Nat → String

/-- Substring test used by the CONTAINS nodes: the needle occurs as a
contiguous run of the haystack. -/
def containsSub (needle hay : List Char) : Bool :=
  (List.range (hay.length + 1)).any fun i => needle.isPrefixOf (hay.drop i)

/-- Truth value of one condition node at one row (documented meaning of
the `QueryEngine.h` node types; the `_INS` variants compare
case-insensitively). -/
def evalCond (row : QRow) : QueryCond → Bool
  | .intEqual c v => row.ints c == v
  | .intNotEqual c v => row.ints c != v
  | .intGreater c v => v < row.ints c
  | .intLess c v => row.ints c < v
  | .boolEqual c v => row.bools c == v
  | .strNode op c v =>
      match op with
      | .equal => row.strs c == v
      | .equalIns => (row.strs c).toLower == v.toLower
      | .beginsWithOp => v.isPrefixOf (row.strs c)
      | .beginsWithIns => v.toLower.isPrefixOf (row.strs c).toLower
      | .endsWithOp => (row.strs c).endsWith v
      | .endsWithIns => (row.strs c).toLower.endsWith v.toLower
      | .containsOp => containsSub v.data (row.strs c).data
      | .containsIns => containsSub v.toLower.data (row.strs c).toLower.data
      | .notEqual => row.strs c != v
      | .notEqualIns => (row.strs c).toLower != v.toLower

/-- A row matches a query when every node of the AND-chain holds. -/
def Query.matches (q : Query) (row : QRow) : Bool :=
  q.nodes.all (evalCond row)

/-- Match set of a query over a list of rows: the indices whose row
matches, in ascending order (as produced by `FindAll`). -/
def Query.matchSet (q : Query) (rows : List QRow) : List Nat :=
  (List.range rows.length).filter fun i =>
    match rows.get? i with
    | some row => q.matches row
    | none => false

/-- Source `Query::Equal(size_t, int64_t)`: appends an EQUAL node. -/
def Query.Equal (q : Query) (column_id : Nat) (value : Int) : Query :=
  ⟨q.nodes ++ [.intEqual column_id value]⟩

/-- Source `Query::NotEqual(size_t, int64_t)`: appends a NOTEQUAL node. -/
def Query.NotEqual (q : Query) (column_id : Nat) (value : Int) : Query :=
  ⟨q.nodes ++ [.intNotEqual column_id value]⟩

/-- Source `Query::Greater(size_t, int64_t)`: appends a GREATER node. -/
def Query.Greater (q : Query) (column_id : Nat) (value : Int) : Query :=
  ⟨q.nodes ++ [.intGreater column_id value]⟩

/-- Source `Query::Less(size_t, int64_t)`: appends a LESS node. -/
def Query.Less (q : Query) (column_id : Nat) (value : Int) : Query :=
  ⟨q.nodes ++ [.intLess column_id value]⟩

/-- Source `Query::GreaterEqual(size_t, int64_t)`: when
`value > LLONG_MIN` it appends `GREATER(value - 1)`; otherwise it adds
no node at all (the source comment: `field >= LLONG_MIN has no effect`). -/
def Query.GreaterEqual (q : Query) (column_id : Nat) (value : Int) : Query :=
  if LLONG_MIN < value then q.Greater column_id (value - 1) else q

/-- Source `Query::LessEqual(size_t, int64_t)`: when
`value < LLONG_MAX` it appends `LESS(value + 1)`; otherwise it adds no
node at all (the source comment: `field <= LLONG_MAX has no effect`). -/
def Query.LessEqual (q : Query) (column_id : Nat) (value : Int) : Query :=
  if value < LLONG_MAX then q.Less column_id (value + 1) else q

/-- Source `Query::Between`: `GreaterEqual(from)` then `LessEqual(to)`. -/
def Query.Between (q : Query) (column_id : Nat) (from_v to_v : Int) : Query :=
  (q.GreaterEqual column_id from_v).LessEqual column_id to_v

/-- Source `Query::Equal(size_t, bool)`. -/
def Query.EqualBool (q : Query) (column_id : Nat) (value : Bool) : Query :=
  ⟨q.nodes ++ [.boolEqual column_id value]⟩

/-- Source `Query::Equal(size_t, const char*, bool)`: a `STRINGNODE` of
kind EQUAL, or EQUAL_INS when not case sensitive. -/
def Query.EqualString (q : Query) (column_id : Nat) (value : String)
    (caseSensitive : Bool) : Query :=
  ⟨q.nodes ++ [.strNode (if caseSensitive then .equal else .equalIns) column_id value]⟩

/-- Source `Query::BeginsWith`: a `STRINGNODE` of kind BEGINSWITH, or
BEGINSWITH_INS when not case sensitive. -/
def Query.BeginsWith (q : Query) (column_id : Nat) (value : String)
    (caseSensitive : Bool) : Query :=
  ⟨q.nodes ++ [.strNode (if caseSensitive then .beginsWithOp else .beginsWithIns) column_id value]⟩

/-- Source `Query::EndsWith`. -/
def Query.EndsWith (q : Query) (column_id : Nat) (value : String)
    (caseSensitive : Bool) : Query :=
  ⟨q.nodes ++ [.strNode (if caseSensitive then .endsWithOp else .endsWithIns) column_id value]⟩

/-- Source `Query::Contains`. -/
def Query.Contains (q : Query) (column_id : Nat) (value : String)
    (caseSensitive : Bool) : Query :=
  ⟨q.nodes ++ [.strNode (if caseSensitive then .containsOp else .containsIns) column_id value]⟩

/-- Source `Query::NotEqual(size_t, const char*, bool)`. -/
def Query.NotEqualString (q : Query) (column_id : Nat) (value : String)
    (caseSensitive : Bool) : Query :=
  ⟨q.nodes ++ [.strNode (if caseSensitive then .notEqual else .notEqualIns) column_id value]⟩

/-- The string accessor of `QueryInterface.h`: it captures the query it
was created on (`m_query`) and a fixed column id (`m_column_id`). -/
structure XQueryAccessorString where
  m_query : Query
  m_column_id : Nat

/-- Source `XQueryAccessorString::Equal`: forwards to
`Query::Equal(m_column_id, value, CaseSensitive)`. -/
def XQueryAccessorString.Equal (a : XQueryAccessorString) (value : String)
    (caseSensitive : Bool) : Query :=
  a.m_query.EqualString a.m_column_id value caseSensitive

/-- Source `XQueryAccessorString::BeginsWith` as written at
QueryInterface.h line 437: its body is
`return m_query->Equal(m_column_id, value, CaseSensitive);` — it
forwards to `Query::Equal`, not to `Query::BeginsWith`. -/
def XQueryAccessorString.BeginsWith (a : XQueryAccessorString) (value : String)
    (caseSensitive : Bool) : Query :=
  a.m_query.EqualString a.m_column_id value caseSensitive

/-- Source `XQueryAccessorString::EndsWith`: forwards to `Query::EndsWith`. -/
def XQueryAccessorString.EndsWith (a : XQueryAccessorString) (value : String)
    (caseSensitive : Bool) : Query :=
  a.m_query.EndsWith a.m_column_id value caseSensitive

/-- Source `XQueryAccessorString::Contains`: forwards to `Query::Contains`. -/
def XQueryAccessorString.Contains (a : XQueryAccessorString) (value : String)
    (caseSensitive : Bool) : Query :=
  a.m_query.Contains a.m_column_id value caseSensitive

/-- Source `XQueryAccessorString::NotEqual`: forwards to `Query::NotEqual`. -/
def XQueryAccessorString.NotEqual (a : XQueryAccessorString) (value : String)
    (caseSensitive : Bool) : Query :=
  a.m_query.NotEqualString a.m_column_id value caseSensitive

/-- Internal type tags stored in the `m_types` column of a Mixed column
(`MixedColType` of `column_mixed.hpp`, as used by `column_mixed.cpp`):
the public tags plus the two internal negative-encoded tags
`MIXED_COL_INT_NEG` and `MIXED_COL_DOUBLE_NEG`. -/
inductive MixedColType where
  | mixedInt | mixedIntNeg
  | mixedBool | mixedDate
  | mixedFloat | mixedDouble | mixedDoubleNeg
  | mixedString | mixedBinary | mixedTable
  deriving DecidableEq, Repr

/-- Public column types observable through `ColumnMixed::GetType`
(the `COLUMN_TYPE_*` values a Mixed cell can report). -/
inductive ColumnType where
  | typeInt | typeBool | typeDate | typeFloat | typeDouble
  | typeString | typeBinary | typeTable
  deriving DecidableEq, Repr

/-- The `static_cast<ColumnType>(coltype)` of the `default` branch of
`ColumnMixed::GetType`, backed by the source comment `all others must be
in sync with ColumnType`: every tag other than the two negative-encoded
ones carries the numeric value of its public counterpart.  The two
negative tags are intercepted before this cast is ever applied; mapping
them here follows the same numeric reading and is unused by `GetType`. -/
def MixedColType.castSync : MixedColType → ColumnType
  | .mixedInt => .typeInt
  | .mixedIntNeg => .typeInt
  | .mixedBool => .typeBool
  | .mixedDate => .typeDate
  | .mixedFloat => .typeFloat
  | .mixedDouble => .typeDouble
  | .mixedDoubleNeg => .typeDouble
  | .mixedString => .typeString
  | .mixedBinary => .typeBinary
  | .mixedTable => .typeTable

/-- The switch of `ColumnMixed::GetType` (column_mixed.cpp lines
149-158) applied to one stored tag: `MIXED_COL_INT_NEG` reports
`COLUMN_TYPE_INT`, `MIXED_COL_DOUBLE_NEG` reports `COLUMN_TYPE_DOUBLE`,
and every other tag goes through the in-sync cast. -/
def mixedTagType : MixedColType → ColumnType
  | .mixedIntNeg => .typeInt
  | .mixedDoubleNeg => .typeDouble
  | t => t.castSync

/-- The part of a `ColumnMixed` that `GetType` reads: the `m_types`
column of stored tags, one per row. -/
structure ColumnMixed where
  m_types : List MixedColType

/-- Model of `ColumnMixed::GetType(ndx)`: reads the tag at `ndx` from
`m_types` and translates it; `none` when `ndx` is out of range (the
source asserts `ndx < m_types->Size()`). -/
def ColumnMixed.GetType (m : ColumnMixed) (ndx : Nat) : Option ColumnType :=
  (m.m_types.get? ndx).map mixedTagType

namespace Repl

/-!
The replication / changeset subsystem.  Its implementation (recorder,
transact-log parser, applier, cascade engine) is not part of this
snapshot — only its test suite `test/test_replication.cpp` is — so all
definitions of this namespace are modelled from the specification
(spec §3 data model, §4.1 instruction set, §4.2 recorder, §4.3 applier,
§4.4 cascade engine, §6 store mutation API).  Rows additionally carry a
ghost identity `rid`, assigned deterministically from a per-table
counter; it is invisible to the instruction stream and serves only to
track a row across the index renumbering done by move-last-over.
-/

/-- Modelled from the spec: link strength, a column-level attribute of
Link/LinkList columns (spec §3). -/
inductive Strength where
  | weak | strong
  deriving DecidableEq, Repr

/-- Modelled from the spec: column data types (the subset of the spec §3
scalar types exercised by the replication properties, plus Link and
LinkList with their target-table index). -/
inductive DataType where
  | intType | boolType | stringType | binaryType | timestampType
  | linkType (target : Nat)
  | linkListType (target : Nat)
  deriving DecidableEq, Repr

/-- Modelled from the spec: a column has a name, a type, a nullability
flag and (meaningful for Link/LinkList only) a link strength (spec §3). -/
structure ColSpec where
  cname : String
  dtype : DataType
  nullable : Bool
  strength : Strength
  deriving DecidableEq, Repr

/-- Cell values.  A null Link is `linkV none`; a scalar null is `nullV`;
a LinkList cell holds the ordered, duplicate-allowing list of target
row indices (spec §3). -/
inductive Value where
  | nullV
  | intV (v : Int)
  | boolV (b : Bool)
  | stringV (s : String)
  | binaryV (bytes : List Nat)
  | timestampV (sec nsec : Int)
  | linkV (target : Option Nat)
  | listV (targets : List Nat)
  deriving DecidableEq, Repr

/-- A row: its ghost identity and one cell per column. -/
structure Row where
  rid : Nat
  cells : List Value
  deriving DecidableEq, Repr

/-- A table: name, ordered columns, ordered rows, and the ghost-id
counter for the next inserted row. -/
structure Table where
  tname : String
  cols : List ColSpec
  rows : List Row
  nextId : Nat
  deriving DecidableEq, Repr

/-- A group: an ordered sequence of tables (spec §3). -/
structure Group where
  tables : List Table
  deriving DecidableEq, Repr

/-- A freshly created empty store. -/
def emptyGroup : Group := ⟨[]⟩

/-- Default value of a fresh cell: null link, empty link list, scalar
null when the column is nullable, and the type's zero value otherwise
(cf. the defaults observed by `test_replication.cpp`). -/
def defaultValue (d : DataType) (nullable : Bool) : Value :=
  match d with
  | .linkType _ => .linkV none
  | .linkListType _ => .listV []
  | _ =>
    if nullable then .nullV
    else
      match d with
      | .intType => .intV 0
      | .boolType => .boolV false
      | .stringType => .stringV ""
      | .binaryType => .binaryV []
      | _ => .timestampV 0 0

/-- Table at index `t`, when it exists. -/
def Group.table? (g : Group) (t : Nat) : Option Table :=
  g.tables.get? t

/-- Number of rows of table `t` (`Table::size`). -/
def Group.rowCount (g : Group) (t : Nat) : Option Nat :=
  (g.table? t).map fun tb => tb.rows.length

/-- Number of columns of table `t` (`Table::get_column_count`). -/
def Group.colCount (g : Group) (t : Nat) : Option Nat :=
  (g.table? t).map fun tb => tb.cols.length

/-- Column specification at `(t, c)`. -/
def Group.colSpec? (g : Group) (t c : Nat) : Option ColSpec :=
  (g.table? t).bind fun tb => tb.cols.get? c

/-- Cell value at column `c` of row `r` of table `t`; `none` when the
table, column or row does not exist. -/
def Group.cellAt (g : Group) (t c r : Nat) : Option Value :=
  (g.table? t).bind fun tb =>
    (tb.cols.get? c).bind fun _ =>
      (tb.rows.get? r).bind fun row => row.cells.get? c

/-- Scalar null test of a cell (`is_null`): a stored `nullV` is null,
everything else is not. -/
def Group.isNullAt (g : Group) (t c r : Nat) : Option Bool :=
  (g.cellAt t c r).map fun v => v == .nullV

/-- Row indices referenced by one cell: the target of a non-null link,
or the elements of a link list. -/
def cellRefs : Value → List Nat
  | .linkV (some x) => [x]
  | .listV xs => xs
  | _ => []

/-- Does this column hold links into table `t`? -/
def ColSpec.targets (spec : ColSpec) (t : Nat) : Bool :=
  match spec.dtype with
  | .linkType tgt => tgt == t
  | .linkListType tgt => tgt == t
  | _ => false

/-- Does this column hold Strong links into table `t`? -/
def ColSpec.targetsStrong (spec : ColSpec) (t : Nat) : Bool :=
  spec.targets t && spec.strength == .strong

/-- Row indices of table `t` referenced from one row through the columns
selected by `p` (with multiplicity). -/
def rowRefsTo (cols : List ColSpec) (cells : List Value) (p : ColSpec → Bool) : List Nat :=
  (cols.zip cells).flatMap fun sc => if p sc.1 then cellRefs sc.2 else []

/-- Multiset of Strong references into table `t` held by one table's
rows. -/
def Table.strongRefsTo (tb : Table) (t : Nat) : List Nat :=
  tb.rows.flatMap fun row => rowRefsTo tb.cols row.cells fun spec => spec.targetsStrong t

/-- Multiset of Strong references into table `t` across the whole group:
target row indices, with multiplicity (spec §4.4 step 3 counts its
elements). -/
def Group.strongRefsTo (g : Group) (t : Nat) : List Nat :=
  g.tables.flatMap fun tb => tb.strongRefsTo t

/-- Ghost id of the row at index `x` of table `t`. -/
def Group.idAt (g : Group) (t x : Nat) : Option Nat :=
  (g.table? t).bind fun tb => (tb.rows.get? x).map Row.rid

/-- Remaining incoming Strong-reference count of the row with ghost id
`ρ` of table `t`: the Strong references into `t` whose target index
currently holds `ρ` (spec §4.4 step 3). -/
def Group.idStrongRefCount (g : Group) (t ρ : Nat) : Nat :=
  ((g.strongRefsTo t).filterMap fun x => g.idAt t x).count ρ

/-- Backlink count of `(target t, row r)` through origin column
`(o, c)` — `Table::get_backlink_count`, counted over forward links of
either strength. -/
def Group.backlinkCount (g : Group) (t r o c : Nat) : Nat :=
  match g.table? o with
  | none => 0
  | some tb =>
    match tb.cols.get? c with
    | none => 0
    | some spec =>
      if spec.targets t then
        (tb.rows.map fun row => (cellRefs ((row.cells.get? c).getD .nullV)).count r).sum
      else 0

/-- First row index of `rows` whose ghost id is `ρ`. -/
def findIdxOfId (ρ : Nat) : List Row → Option Nat
  | [] => none
  | row :: rest =>
      if row.rid = ρ then some 0 else (findIdxOfId ρ rest).map (· + 1)

/-- Current index of the row with ghost id `ρ` in table `t`; `none` when
the row is no longer present. -/
def Group.indexOfId (g : Group) (t ρ : Nat) : Option Nat :=
  (g.table? t).bind fun tb => findIdxOfId ρ tb.rows

/-- Total number of rows in the group, over all tables. -/
def Group.totalRows (g : Group) : Nat :=
  (g.tables.map fun tb => tb.rows.length).sum

/-- Well-formedness: per table, ghost ids are distinct and below the
counter, and each row has one cell per column. -/
def Table.WF (tb : Table) : Prop :=
  (tb.rows.map Row.rid).Nodup ∧
  (∀ ρ ∈ tb.rows.map Row.rid, ρ < tb.nextId) ∧
  (∀ row ∈ tb.rows, row.cells.length = tb.cols.length)

/-- Well-formedness of a group: every table is well-formed. -/
def Group.WF (g : Group) : Prop :=
  ∀ tb ∈ g.tables, tb.WF

/-- Replace table `t` (no-op when absent). -/
def Group.modifyTable (g : Group) (t : Nat) (f : Table → Table) : Group :=
  match g.tables.get? t with
  | none => g
  | some tb => ⟨g.tables.set t (f tb)⟩

/-- Reference fix-up of move-last-over on a table of `n` rows from which
row `r` is removed: references to `r` disappear, references to the moved
last row `n - 1` are rebased to `r`, all others are unchanged
(spec §4.3, `MoveLastOver`). -/
def mloFix (r n x : Nat) : Option Nat :=
  if x = r then none else if x = n - 1 then some r else some x

/-- Apply a reference fix-up to one cell value. -/
def fixValue (fix : Nat → Option Nat) : Value → Value
  | .linkV (some x) => .linkV (fix x)
  | .listV xs => .listV (xs.filterMap fix)
  | v => v

/-- Cells of one row after fixing every reference into table `t`. -/
def fixRowCells (cols : List ColSpec) (cells : List Value) (t : Nat)
    (fix : Nat → Option Nat) : List Value :=
  (cols.zip cells).map fun sc => if sc.1.targets t then fixValue fix sc.2 else sc.2

/-- Apply a reference fix-up to every cell of every column of the group
that targets table `t`. -/
def Group.fixRefsInto (g : Group) (t : Nat) (fix : Nat → Option Nat) : Group :=
  ⟨g.tables.map fun tb =>
    { tb with rows := tb.rows.map fun row =>
        { row with cells := fixRowCells tb.cols row.cells t fix } }⟩

/-- Move-last-over on the row list: the last row is swapped into slot
`r` and the list is truncated by one (spec §3 invariant 7). -/
def mloRows (rows : List Row) (r : Nat) : List Row :=
  match rows.getLast? with
  | none => rows
  | some last => if r < rows.length then (rows.set r last).dropLast else rows

/-- The `move_last_over` store primitive (spec §6): remove row `r` of
table `t`, swapping in the former last row; every link cell and
link-list entry of the group pointing into `t` is nullified/removed
when it pointed to `r` and rebased when it pointed to the moved row. -/
def Group.move_last_over (g : Group) (t r : Nat) : Group :=
  match g.tables.get? t with
  | none => g
  | some tb =>
    (g.fixRefsInto t (mloFix r tb.rows.length)).modifyTable t
      fun tb2 => { tb2 with rows := mloRows tb2.rows r }

/-- The `clear` store primitive (spec §6): remove all rows of table `t`;
every link cell of the group pointing into `t` becomes null and every
link-list entry pointing into `t` is removed. -/
def Group.clear_table (g : Group) (t : Nat) : Group :=
  match g.tables.get? t with
  | none => g
  | some _ =>
    (g.fixRefsInto t fun _ => none).modifyTable t
      fun tb2 => { tb2 with rows := [] }

/-- The `add_table` store primitive: appends a new empty table when the
name is not already taken (spec §3: table names are unique). -/
def Group.add_table (g : Group) (name : String) : Group :=
  if (g.tables.map Table.tname).contains name then g
  else ⟨g.tables ++ [⟨name, [], [], 0⟩]⟩

/-- Is this data type usable inside group `g` (link targets must name an
existing table)? -/
def DataType.validIn (d : DataType) (g : Group) : Bool :=
  match d with
  | .linkType tgt => tgt < g.tables.length
  | .linkListType tgt => tgt < g.tables.length
  | _ => true

/-- The `insert_column` store primitive: insert a column at position `c`
of table `t` and a default cell into every row.  For a Link/LinkList
type the paired backlink bookkeeping of the target (spec §4.3,
`InsertColumn`) is implicit here: backlinks are derived views of the
forward links. -/
def Group.insert_column (g : Group) (t c : Nat) (name : String) (d : DataType)
    (nullable : Bool) (str : Strength) : Group :=
  if d.validIn g then
    g.modifyTable t fun tb =>
      if c ≤ tb.cols.length then
        { tb with
          cols := tb.cols.insertIdx c ⟨name, d, nullable, str⟩,
          rows := tb.rows.map fun row =>
            { row with cells := row.cells.insertIdx c (defaultValue d nullable) } }
      else tb
  else g

/-- The `erase_column` store primitive: remove column `c` of table `t`
and its cell from every row.  When the last column is removed the row
count drops to zero (spec §3 invariant 4) and, as for `clear`, every
link into `t` is nullified/removed; dropping the erased column's own
forward links does not trigger cascade (spec §4.3, `EraseColumn`). -/
def Group.erase_column (g : Group) (t c : Nat) : Group :=
  match g.tables.get? t with
  | none => g
  | some tb =>
    match tb.cols.get? c with
    | none => g
    | some _ =>
      let g1 := g.modifyTable t fun tb2 =>
        { tb2 with
          cols := tb2.cols.eraseIdx c,
          rows := tb2.rows.map fun row =>
            { row with cells := row.cells.eraseIdx c } }
      if tb.cols.length = 1 then
        (g1.fixRefsInto t fun _ => none).modifyTable t
          fun tb2 => { tb2 with rows := [] }
      else g1

/-- The `add_empty_row` store primitive: append `n` default rows, with
fresh ghost ids drawn from the table counter. -/
def Group.add_empty_row (g : Group) (t n : Nat) : Group :=
  g.modifyTable t fun tb =>
    { tb with
      rows := tb.rows ++ (List.range n).map fun i =>
        { rid := tb.nextId + i,
          cells := tb.cols.map fun spec => defaultValue spec.dtype spec.nullable },
      nextId := tb.nextId + n }

/-- The `insert_empty_row` store primitive: insert `n` default rows
before position `pos`, shifting subsequent rows up; every reference into
`t` at an index `≥ pos` is rebased by `n` (spec §3 invariant 7). -/
def Group.insert_empty_row (g : Group) (t pos n : Nat) : Group :=
  match g.tables.get? t with
  | none => g
  | some tb =>
    if pos ≤ tb.rows.length then
      (g.fixRefsInto t fun x => if pos ≤ x then some (x + n) else some x).modifyTable t
        fun tb2 =>
          { tb2 with
            rows := tb2.rows.take pos ++
              ((List.range n).map fun i =>
                { rid := tb2.nextId + i,
                  cells := tb2.cols.map fun spec => defaultValue spec.dtype spec.nullable }) ++
              tb2.rows.drop pos,
            nextId := tb2.nextId + n }
    else g

/-- Does value `v` fit column `spec` inside group `g`?  Scalar nulls
need a nullable column; links need the matching Link/LinkList type and
in-range target rows (spec §3 invariants 1-2, §7 SchemaViolation). -/
def Group.valueFits (g : Group) (spec : ColSpec) : Value → Bool
  | .nullV =>
      spec.nullable &&
        (match spec.dtype with
         | .linkType _ => false
         | .linkListType _ => false
         | _ => true)
  | .intV _ => spec.dtype == .intType
  | .boolV _ => spec.dtype == .boolType
  | .stringV _ => spec.dtype == .stringType
  | .binaryV _ => spec.dtype == .binaryType
  | .timestampV _ _ => spec.dtype == .timestampType
  | .linkV none =>
      match spec.dtype with
      | .linkType _ => true
      | _ => false
  | .linkV (some x) =>
      match spec.dtype with
      | .linkType tgt => x < (g.rowCount tgt).getD 0
      | _ => false
  | .listV xs =>
      match spec.dtype with
      | .linkListType tgt => xs.all fun x => x < (g.rowCount tgt).getD 0
      | _ => false

/-- Overwrite cell `(c, r)` of a table (no-op when out of range). -/
def Table.setCell (tb : Table) (c r : Nat) (v : Value) : Table :=
  match tb.rows.get? r with
  | none => tb
  | some row => { tb with rows := tb.rows.set r { row with cells := row.cells.set c v } }

/-- The typed `set_<T>` / `set_null` / `set_link` store primitive: write
`v` into cell `(t, c, r)` when the column exists and the value fits it
(spec §6). -/
def Group.set_cell (g : Group) (t c r : Nat) (v : Value) : Group :=
  match g.tables.get? t with
  | none => g
  | some tb =>
    match tb.cols.get? c with
    | none => g
    | some spec =>
      if g.valueFits spec v then ⟨g.tables.set t (tb.setCell c r v)⟩ else g

/-- The `set_<T>_unique` store primitive (spec §4.3): when another row
of the column already holds `v`, that row is kept and the just-inserted
row `r` is removed via move-last-over; otherwise the cell is set. -/
def Group.set_unique (g : Group) (t c r : Nat) (v : Value) : Group :=
  match g.tables.get? t with
  | none => g
  | some tb =>
    match tb.cols.get? c with
    | none => g
    | some spec =>
      if g.valueFits spec v && r < tb.rows.length then
        match (List.range tb.rows.length).find? (fun i =>
            i != r && ((tb.rows.get? i).bind (fun row => row.cells.get? c) == some v)) with
        | some _ => g.move_last_over t r
        | none => ⟨g.tables.set t (tb.setCell c r v)⟩
      else g

/-- Read a LinkList cell: its target table and current elements. -/
def Group.listCell (g : Group) (t c r : Nat) : Option (Nat × List Nat) :=
  (g.tables.get? t).bind fun tb =>
    (tb.cols.get? c).bind fun spec =>
      match spec.dtype with
      | .linkListType tgt =>
          (tb.rows.get? r).bind fun row =>
            match row.cells.get? c with
            | some (.listV xs) => some (tgt, xs)
            | _ => none
      | _ => none

/-- Overwrite a LinkList cell with new elements (callers have already
checked the cell is a LinkList). -/
def Group.writeListCell (g : Group) (t c r : Nat) (xs : List Nat) : Group :=
  match g.tables.get? t with
  | none => g
  | some tb => ⟨g.tables.set t (tb.setCell c r (.listV xs))⟩

/-- Modelled from the spec: the changeset instruction set (spec §4.1),
restricted to the opcode families the replication properties exercise.
Each user-level mutation of the source store is recorded as exactly one
instruction carrying its full context (the spec §4.2 allows inlining the
selection context in every instruction); implicit cascade deletions are
never recorded (spec §4.2, §4.4). -/
inductive Instr where
  | addTable (name : String)
  | insertColumn (t c : Nat) (name : String) (d : DataType) (nullable : Bool) (str : Strength)
  | eraseColumn (t c : Nat)
  | addEmptyRow (t n : Nat)
  | insertEmptyRow (t pos n : Nat)
  | moveLastOver (t r : Nat)
  | clearTable (t : Nat)
  | setInt (t c r : Nat) (v : Int)
  | setBool (t c r : Nat) (b : Bool)
  | setString (t c r : Nat) (s : String)
  | setBinary (t c r : Nat) (bytes : List Nat)
  | setTimestamp (t c r : Nat) (sec nsec : Int)
  | setNull (t c r : Nat)
  | setLink (t c r : Nat) (target : Option Nat)
  | nullifyLink (t c r : Nat)
  | setIntUnique (t c r : Nat) (v : Int)
  | setStringUnique (t c r : Nat) (s : String)
  | setNullUnique (t c r : Nat)
  | linkListSet (t c r idx tgt : Nat)
  | linkListInsert (t c r idx tgt : Nat)
  | linkListAdd (t c r tgt : Nat)
  | linkListErase (t c r idx : Nat)
  | linkListClear (t c r : Nat)
  | linkListSwap (t c r i j : Nat)
  deriving DecidableEq, Repr

/-- The store mutation an instruction performs, before the cascade
engine runs (spec §4.3 semantic mappings; spec §4.4 step 2). -/
def Group.mutateRaw (g : Group) : Instr → Group
  | .addTable name => g.add_table name
  | .insertColumn t c name d nb str => g.insert_column t c name d nb str
  | .eraseColumn t c => g.erase_column t c
  | .addEmptyRow t n => g.add_empty_row t n
  | .insertEmptyRow t pos n => g.insert_empty_row t pos n
  | .moveLastOver t r => g.move_last_over t r
  | .clearTable t => g.clear_table t
  | .setInt t c r v => g.set_cell t c r (.intV v)
  | .setBool t c r b => g.set_cell t c r (.boolV b)
  | .setString t c r s => g.set_cell t c r (.stringV s)
  | .setBinary t c r bs => g.set_cell t c r (.binaryV bs)
  | .setTimestamp t c r sec nsec => g.set_cell t c r (.timestampV sec nsec)
  | .setNull t c r => g.set_cell t c r .nullV
  | .setLink t c r tgt => g.set_cell t c r (.linkV tgt)
  | .nullifyLink t c r => g.set_cell t c r (.linkV none)
  | .setIntUnique t c r v => g.set_unique t c r (.intV v)
  | .setStringUnique t c r s => g.set_unique t c r (.stringV s)
  | .setNullUnique t c r => g.set_unique t c r .nullV
  | .linkListSet t c r i x =>
      match g.listCell t c r with
      | some (tgt, xs) =>
          if i < xs.length && x < (g.rowCount tgt).getD 0 then
            g.writeListCell t c r (xs.set i x)
          else g
      | none => g
  | .linkListInsert t c r i x =>
      match g.listCell t c r with
      | some (tgt, xs) =>
          if i ≤ xs.length && x < (g.rowCount tgt).getD 0 then
            g.writeListCell t c r (xs.insertIdx i x)
          else g
      | none => g
  | .linkListAdd t c r x =>
      match g.listCell t c r with
      | some (tgt, xs) =>
          if x < (g.rowCount tgt).getD 0 then
            g.writeListCell t c r (xs ++ [x])
          else g
      | none => g
  | .linkListErase t c r i =>
      match g.listCell t c r with
      | some (_, xs) =>
          if i < xs.length then g.writeListCell t c r (xs.eraseIdx i) else g
      | none => g
  | .linkListClear t c r =>
      match g.listCell t c r with
      | some (_, _) => g.writeListCell t c r []
      | none => g
  | .linkListSwap t c r i j =>
      match g.listCell t c r with
      | some (_, xs) =>
          match xs.get? i, xs.get? j with
          | some xi, some xj => g.writeListCell t c r ((xs.set i xj).set j xi)
          | _, _ => g
      | none => g

/-- Spec §4.4 step 1: the rows that lose at least one incoming Strong
reference when the state moves from `g` to `g2`, as (table index, ghost
id) pairs. -/
def Group.lostRefCands (g g2 : Group) : List (Nat × Nat) :=
  (List.range g.tables.length).flatMap fun t =>
    match g.tables.get? t with
    | none => []
    | some tb =>
      ((tb.rows.map Row.rid).filter fun ρ =>
        g2.idStrongRefCount t ρ < g.idStrongRefCount t ρ).map fun ρ => (t, ρ)

/-- Does this instruction suppress the cascade engine?  `EraseColumn`
drops its forward links without triggering cascade (spec §4.3). -/
def Instr.noCascade : Instr → Bool
  | .eraseColumn _ _ => true
  | _ => false

/-- Initial cascade worklist of an instruction (spec §4.4 step 1). -/
def Group.instrCands (g : Group) (i : Instr) : List (Nat × Nat) :=
  if i.noCascade then [] else g.lostRefCands (g.mutateRaw i)

/-- Spec §4.4 step 3, one sweep: skip worklist entries whose row is
already gone or whose per-candidate recount is non-zero, and return the
first entry scheduled for deletion — its table, ghost id, current row
index and the remaining worklist — or `none` when no entry is
actionable. -/
def Group.cascadeSkip (g : Group) : List (Nat × Nat) → Option (Nat × Nat × Nat × List (Nat × Nat))
  | [] => none
  | (t, ρ) :: wl =>
    match g.indexOfId t ρ with
    | none => g.cascadeSkip wl
    | some r =>
      if g.idStrongRefCount t ρ = 0 then some (t, ρ, r, wl) else g.cascadeSkip wl

/-- Modelled from the spec: the cascade engine (spec §4.4 steps 3-5) as
an explicit worklist with a per-candidate recount.  For each scheduled
pair the remaining incoming Strong count is re-taken on the current
state; a row whose count reached zero is deleted via move-last-over and
the rows that thereby lose a Strong reference join the worklist.  The
log records, for every performed deletion, the state it was performed
in together with the deleted (table, ghost id) pair.  `fuel` bounds the
number of deletions; every deletion removes a row, so `g.totalRows`
fuel is always enough (the starved branch is unreachable then). -/
def Group.cascadeF : Nat → Group → List (Nat × Nat) → Group × List (Group × Nat × Nat)
  | fuel, g, wl =>
    match g.cascadeSkip wl with
    | none => (g, [])
    | some (t, ρ, r, wl2) =>
      match fuel with
      | 0 => (g, [])
      | fuel' + 1 =>
        let g2 := g.move_last_over t r
        let res := Group.cascadeF fuel' g2 (wl2 ++ g.lostRefCands g2)
        (res.1, (g, t, ρ) :: res.2)

/-- Applying one instruction (spec §4.3): perform its mutation, then run
the cascade engine to its fixed point. -/
def Group.applyInstr (g : Group) (i : Instr) : Group :=
  (Group.cascadeF (g.mutateRaw i).totalRows (g.mutateRaw i) (g.instrCands i)).1

/-- Cascade deletion log of one applied instruction: for every row the
cascade engine deleted, the state the deletion was performed in and the
deleted (table, ghost id) pair. -/
def Group.cascadeLog (g : Group) (i : Instr) : List (Group × Nat × Nat) :=
  (Group.cascadeF (g.mutateRaw i).totalRows (g.mutateRaw i) (g.instrCands i)).2

/-- Applying a sequence of instructions in order (spec §4.3 operation
ordering). -/
def Group.applyAll (g : Group) (l : List Instr) : Group :=
  l.foldl Group.applyInstr g

/-- Applying a sequence of write transactions in commit order. -/
def Group.applyTxns (g : Group) (txns : List (List Instr)) : Group :=
  txns.foldl Group.applyAll g

/-- Fuel-driven worker of `encodeULEB`; any fuel at least the value
itself is enough, since the remaining value at least halves each step. -/
def encodeULEBAux : Nat → Nat → List Nat
  | 0, n => [n % 128]
  | fuel + 1, n => if n < 128 then [n] else (n % 128 + 128) :: encodeULEBAux fuel (n / 128)

/-- Modelled from the spec: little-endian base-128 encoding of an
unsigned integer with a continuation bit (spec §4.1, ULEB128). -/
def encodeULEB (n : Nat) : List Nat :=
  encodeULEBAux n n

/-- Read one ULEB128 integer from the front of a byte list. -/
def readULEB : List Nat → Option (Nat × List Nat)
  | [] => none
  | b :: bs =>
      if b < 128 then some (b, bs)
      else (readULEB bs).map fun p => (p.1 * 128 + (b - 128), p.2)

/-- Zigzag encoding of a signed integer over ULEB128 (spec §4.1). -/
def zigzag (i : Int) : Nat :=
  if 0 ≤ i then (2 * i).toNat else (-2 * i - 1).toNat

/-- Inverse of `zigzag`. -/
def unzigzag (n : Nat) : Int :=
  if n % 2 = 0 then ((n / 2 : Nat) : Int) else -(((n / 2 : Nat) : Int) + 1)

/-- Encode a signed integer: zigzag, then ULEB128. -/
def encodeInt (i : Int) : List Nat := encodeULEB (zigzag i)

/-- Read a signed integer. -/
def readInt (bs : List Nat) : Option (Int × List Nat) :=
  (readULEB bs).map fun p => (unzigzag p.1, p.2)

/-- Encode a length-prefixed sequence of unsigned integers. -/
def encodeNats (l : List Nat) : List Nat :=
  encodeULEB l.length ++ l.flatMap encodeULEB

/-- Read `n` consecutive ULEB128 integers. -/
def readNNats : Nat → List Nat → Option (List Nat × List Nat)
  | 0, bs => some ([], bs)
  | n + 1, bs =>
      (readULEB bs).bind fun p =>
        (readNNats n p.2).map fun q => (p.1 :: q.1, q.2)

/-- Read a length-prefixed sequence of unsigned integers. -/
def readNats (bs : List Nat) : Option (List Nat × List Nat) :=
  (readULEB bs).bind fun p => readNNats p.1 p.2

/-- Encode a string: length prefix, then one ULEB128 code point per
character. -/
def encodeStr (s : String) : List Nat :=
  encodeULEB s.data.length ++ s.data.flatMap fun ch => encodeULEB ch.toNat

/-- Read `n` consecutive characters. -/
def readNChars : Nat → List Nat → Option (List Char × List Nat)
  | 0, bs => some ([], bs)
  | n + 1, bs =>
      (readULEB bs).bind fun p =>
        (readNChars n p.2).map fun q => (Char.ofNat p.1 :: q.1, q.2)

/-- Read a length-prefixed string. -/
def readStr (bs : List Nat) : Option (String × List Nat) :=
  (readULEB bs).bind fun p =>
    (readNChars p.1 p.2).map fun q => (String.mk q.1, q.2)

/-- Encode an optional row index (a null link target).  The spec §4.1
states the sentinel `2^64 - 1` for null; with unbounded indices the
model shifts instead: 0 is null, `x + 1` is row `x`. -/
def encodeOptNat : Option Nat → List Nat
  | none => encodeULEB 0
  | some x => encodeULEB (x + 1)

/-- Read an optional row index. -/
def readOptNat (bs : List Nat) : Option (Option Nat × List Nat) :=
  (readULEB bs).map fun p => (if p.1 = 0 then none else some (p.1 - 1), p.2)

/-- Encode a boolean as one ULEB128 integer. -/
def encodeBool (b : Bool) : List Nat := encodeULEB (if b then 1 else 0)

/-- Read a boolean. -/
def readBool (bs : List Nat) : Option (Bool × List Nat) :=
  (readULEB bs).map fun p => (p.1 != 0, p.2)

/-- Encode a link strength. -/
def encodeStrength (s : Strength) : List Nat :=
  encodeULEB (match s with | .weak => 0 | .strong => 1)

/-- Read a link strength. -/
def readStrength (bs : List Nat) : Option (Strength × List Nat) :=
  (readULEB bs).map fun p => ((if p.1 = 0 then .weak else .strong), p.2)

/-- Encode a column data type: tag, plus the target table for links. -/
def encodeDataType : DataType → List Nat
  | .intType => encodeULEB 0
  | .boolType => encodeULEB 1
  | .stringType => encodeULEB 2
  | .binaryType => encodeULEB 3
  | .timestampType => encodeULEB 4
  | .linkType tgt => encodeULEB 5 ++ encodeULEB tgt
  | .linkListType tgt => encodeULEB 6 ++ encodeULEB tgt

/-- Read a column data type. -/
def readDataType (bs : List Nat) : Option (DataType × List Nat) :=
  (readULEB bs).bind fun p =>
    match p.1 with
    | 0 => some (.intType, p.2)
    | 1 => some (.boolType, p.2)
    | 2 => some (.stringType, p.2)
    | 3 => some (.binaryType, p.2)
    | 4 => some (.timestampType, p.2)
    | 5 => (readULEB p.2).map fun q => (.linkType q.1, q.2)
    | 6 => (readULEB p.2).map fun q => (.linkListType q.1, q.2)
    | _ => none

/-- Modelled from the spec: the instruction encoder (spec §4.1-4.2): a
one-byte opcode followed by ULEB128 fields, zigzag for signed integers,
and length-prefixed payloads. -/
def encodeInstr : Instr → List Nat
  | .addTable name => 0 :: encodeStr name
  | .insertColumn t c name d nb str =>
      1 :: (encodeULEB t ++ encodeULEB c ++ encodeStr name ++ encodeDataType d ++
        encodeBool nb ++ encodeStrength str)
  | .eraseColumn t c => 2 :: (encodeULEB t ++ encodeULEB c)
  | .addEmptyRow t n => 3 :: (encodeULEB t ++ encodeULEB n)
  | .insertEmptyRow t pos n => 4 :: (encodeULEB t ++ encodeULEB pos ++ encodeULEB n)
  | .moveLastOver t r => 5 :: (encodeULEB t ++ encodeULEB r)
  | .clearTable t => 6 :: encodeULEB t
  | .setInt t c r v => 7 :: (encodeULEB t ++ encodeULEB c ++ encodeULEB r ++ encodeInt v)
  | .setBool t c r b => 8 :: (encodeULEB t ++ encodeULEB c ++ encodeULEB r ++ encodeBool b)
  | .setString t c r s => 9 :: (encodeULEB t ++ encodeULEB c ++ encodeULEB r ++ encodeStr s)
  | .setBinary t c r bytes =>
      10 :: (encodeULEB t ++ encodeULEB c ++ encodeULEB r ++ encodeNats bytes)
  | .setTimestamp t c r sec nsec =>
      11 :: (encodeULEB t ++ encodeULEB c ++ encodeULEB r ++ encodeInt sec ++ encodeInt nsec)
  | .setNull t c r => 12 :: (encodeULEB t ++ encodeULEB c ++ encodeULEB r)
  | .setLink t c r tgt => 13 :: (encodeULEB t ++ encodeULEB c ++ encodeULEB r ++ encodeOptNat tgt)
  | .nullifyLink t c r => 14 :: (encodeULEB t ++ encodeULEB c ++ encodeULEB r)
  | .setIntUnique t c r v => 15 :: (encodeULEB t ++ encodeULEB c ++ encodeULEB r ++ encodeInt v)
  | .setStringUnique t c r s => 16 :: (encodeULEB t ++ encodeULEB c ++ encodeULEB r ++ encodeStr s)
  | .setNullUnique t c r => 17 :: (encodeULEB t ++ encodeULEB c ++ encodeULEB r)
  | .linkListSet t c r i x =>
      18 :: (encodeULEB t ++ encodeULEB c ++ encodeULEB r ++ encodeULEB i ++ encodeULEB x)
  | .linkListInsert t c r i x =>
      19 :: (encodeULEB t ++ encodeULEB c ++ encodeULEB r ++ encodeULEB i ++ encodeULEB x)
  | .linkListAdd t c r x =>
      20 :: (encodeULEB t ++ encodeULEB c ++ encodeULEB r ++ encodeULEB x)
  | .linkListErase t c r i =>
      21 :: (encodeULEB t ++ encodeULEB c ++ encodeULEB r ++ encodeULEB i)
  | .linkListClear t c r => 22 :: (encodeULEB t ++ encodeULEB c ++ encodeULEB r)
  | .linkListSwap t c r i j =>
      23 :: (encodeULEB t ++ encodeULEB c ++ encodeULEB r ++ encodeULEB i ++ encodeULEB j)

/-- Modelled from the spec: the transact-log parser for one instruction
(spec §4.5): reads the opcode, then the fields; unknown opcodes and
truncated payloads are fatal (`none`). -/
def parseInstr : List Nat → Option (Instr × List Nat)
  | [] => none
  | op :: bs =>
    match op with
    | 0 => (readStr bs).map fun p => (.addTable p.1, p.2)
    | 1 => do
        let (t, b1) ← readULEB bs
        let (c, b2) ← readULEB b1
        let (name, b3) ← readStr b2
        let (d, b4) ← readDataType b3
        let (nb, b5) ← readBool b4
        let (str, b6) ← readStrength b5
        some (.insertColumn t c name d nb str, b6)
    | 2 => do
        let (t, b1) ← readULEB bs
        let (c, b2) ← readULEB b1
        some (.eraseColumn t c, b2)
    | 3 => do
        let (t, b1) ← readULEB bs
        let (n, b2) ← readULEB b1
        some (.addEmptyRow t n, b2)
    | 4 => do
        let (t, b1) ← readULEB bs
        let (pos, b2) ← readULEB b1
        let (n, b3) ← readULEB b2
        some (.insertEmptyRow t pos n, b3)
    | 5 => do
        let (t, b1) ← readULEB bs
        let (r, b2) ← readULEB b1
        some (.moveLastOver t r, b2)
    | 6 => (readULEB bs).map fun p => (.clearTable p.1, p.2)
    | 7 => do
        let (t, b1) ← readULEB bs
        let (c, b2) ← readULEB b1
        let (r, b3) ← readULEB b2
        let (v, b4) ← readInt b3
        some (.setInt t c r v, b4)
    | 8 => do
        let (t, b1) ← readULEB bs
        let (c, b2) ← readULEB b1
        let (r, b3) ← readULEB b2
        let (b, b4) ← readBool b3
        some (.setBool t c r b, b4)
    | 9 => do
        let (t, b1) ← readULEB bs
        let (c, b2) ← readULEB b1
        let (r, b3) ← readULEB b2
        let (s, b4) ← readStr b3
        some (.setString t c r s, b4)
    | 10 => do
        let (t, b1) ← readULEB bs
        let (c, b2) ← readULEB b1
        let (r, b3) ← readULEB b2
        let (bytes, b4) ← readNats b3
        some (.setBinary t c r bytes, b4)
    | 11 => do
        let (t, b1) ← readULEB bs
        let (c, b2) ← readULEB b1
        let (r, b3) ← readULEB b2
        let (sec, b4) ← readInt b3
        let (nsec, b5) ← readInt b4
        some (.setTimestamp t c r sec nsec, b5)
    | 12 => do
        let (t, b1) ← readULEB bs
        let (c, b2) ← readULEB b1
        let (r, b3) ← readULEB b2
        some (.setNull t c r, b3)
    | 13 => do
        let (t, b1) ← readULEB bs
        let (c, b2) ← readULEB b1
        let (r, b3) ← readULEB b2
        let (tgt, b4) ← readOptNat b3
        some (.setLink t c r tgt, b4)
    | 14 => do
        let (t, b1) ← readULEB bs
        let (c, b2) ← readULEB b1
        let (r, b3) ← readULEB b2
        some (.nullifyLink t c r, b3)
    | 15 => do
        let (t, b1) ← readULEB bs
        let (c, b2) ← readULEB b1
        let (r, b3) ← readULEB b2
        let (v, b4) ← readInt b3
        some (.setIntUnique t c r v, b4)
    | 16 => do
        let (t, b1) ← readULEB bs
        let (c, b2) ← readULEB b1
        let (r, b3) ← readULEB b2
        let (s, b4) ← readStr b3
        some (.setStringUnique t c r s, b4)
    | 17 => do
        let (t, b1) ← readULEB bs
        let (c, b2) ← readULEB b1
        let (r, b3) ← readULEB b2
        some (.setNullUnique t c r, b3)
    | 18 => do
        let (t, b1) ← readULEB bs
        let (c, b2) ← readULEB b1
        let (r, b3) ← readULEB b2
        let (i, b4) ← readULEB b3
        let (x, b5) ← readULEB b4
        some (.linkListSet t c r i x, b5)
    | 19 => do
        let (t, b1) ← readULEB bs
        let (c, b2) ← readULEB b1
        let (r, b3) ← readULEB b2
        let (i, b4) ← readULEB b3
        let (x, b5) ← readULEB b4
        some (.linkListInsert t c r i x, b5)
    | 20 => do
        let (t, b1) ← readULEB bs
        let (c, b2) ← readULEB b1
        let (r, b3) ← readULEB b2
        let (x, b4) ← readULEB b3
        some (.linkListAdd t c r x, b4)
    | 21 => do
        let (t, b1) ← readULEB bs
        let (c, b2) ← readULEB b1
        let (r, b3) ← readULEB b2
        let (i, b4) ← readULEB b3
        some (.linkListErase t c r i, b4)
    | 22 => do
        let (t, b1) ← readULEB bs
        let (c, b2) ← readULEB b1
        let (r, b3) ← readULEB b2
        some (.linkListClear t c r, b3)
    | 23 => do
        let (t, b1) ← readULEB bs
        let (c, b2) ← readULEB b1
        let (r, b3) ← readULEB b2
        let (i, b4) ← readULEB b3
        let (j, b5) ← readULEB b4
        some (.linkListSwap t c r i j, b5)
    | _ => none

/-- The changeset of one committed write transaction: the concatenated
encodings of its instructions (spec §4.2 output). -/
def changesetOf (txn : List Instr) : List Nat :=
  txn.flatMap encodeInstr

/-- Fuel-bounded changeset parsing: each instruction consumes at least
its opcode byte, so the byte count is always enough fuel. -/
def parseChangesetF : Nat → List Nat → Option (List Instr)
  | _, [] => some []
  | 0, _ :: _ => none
  | fuel + 1, bs =>
      (parseInstr bs).bind fun p =>
        (parseChangesetF fuel p.2).map fun l => p.1 :: l

/-- Parse a whole changeset back into its instruction sequence
(spec §4.5). -/
def parseChangeset (bs : List Nat) : Option (List Instr) :=
  parseChangesetF bs.length bs

/-- Replay a list of changesets in commit order onto a target store
(spec §4.3): parse each changeset and apply its instructions; a parse
error aborts. -/
def Group.replayChangesets (g : Group) : List (List Nat) → Option Group
  | [] => some g
  | cs :: rest =>
      match parseChangeset cs with
      | none => none
      | some instrs => (g.applyAll instrs).replayChangesets rest

/-- Observable equality of two stores (the state compared by claim C1
and by `Group::operator==` in the tests): same table names in the same
order, same column counts and column types, same row counts, same cell
values, and same backlink counts. -/
def ObsEq (a b : Group) : Prop :=
  a.tables.map Table.tname = b.tables.map Table.tname ∧
  (∀ t, a.colCount t = b.colCount t) ∧
  (∀ t c, a.colSpec? t c = b.colSpec? t c) ∧
  (∀ t, a.rowCount t = b.rowCount t) ∧
  (∀ t c r, a.cellAt t c r = b.cellAt t c r) ∧
  (∀ t r o c, a.backlinkCount t r o c = b.backlinkCount t r o c)

/-- Concrete store used by witnesses: tables `origin` and `target`, a
Strong Link column `origin.0 → target`, an Int column on `target`, two
rows in each table, and `origin[i].link = target[i]` (the setup of test
`Replication_CascadeRemove_ColumnLink`). -/
def demoLinkGroup : Group :=
  emptyGroup.applyAll
    [.addTable "origin", .addTable "target",
     .insertColumn 0 0 "o_1" (.linkType 1) false .strong,
     .insertColumn 1 0 "t_1" .intType false .weak,
     .addEmptyRow 0 2, .addEmptyRow 1 2,
     .setLink 0 0 0 (some 0), .setLink 0 0 1 (some 1)]

/-- Concrete store used by witnesses: as `demoLinkGroup` but with a
Strong LinkList column, `origin[0].list = [0]` and
`origin[1].list = [0, 1]` (the setup of test
`LangBindHelper_AdvanceReadTransact_CascadeRemove_ColumnLinkList`). -/
def demoLinkListGroup : Group :=
  emptyGroup.applyAll
    [.addTable "origin", .addTable "target",
     .insertColumn 0 0 "o_1" (.linkListType 1) false .strong,
     .insertColumn 1 0 "t_1" .intType false .weak,
     .addEmptyRow 0 2, .addEmptyRow 1 2,
     .linkListAdd 0 0 0 0, .linkListAdd 0 0 1 0, .linkListAdd 0 0 1 1]

/-- Concrete store exhibiting a Strong column on a weak-target table:
table `T` (index 0) holds a Strong Link column into table `U`
(index 1), `U` holds a Weak Link column back into `T`, one row each,
and `T[0].link = U[0]`.  Every column targeting `T` is Weak, yet `T`'s
own row holds a Strong reference. -/
def demoStrongOutGroup : Group :=
  emptyGroup.applyAll
    [.addTable "T", .addTable "U",
     .insertColumn 0 0 "l" (.linkType 1) false .strong,
     .insertColumn 1 0 "back" (.linkType 0) false .weak,
     .addEmptyRow 0 1, .addEmptyRow 1 1,
     .setLink 0 0 0 (some 0)]

/-- Concrete store used by the clear-frame witness: a Weak Link column
`origin.0 → target`, an Int column on `target`, one row each, and
`origin[0].link = target[0]` (the weak-links setup of test
`Replication_Links`). -/
def demoWeakGroup : Group :=
  emptyGroup.applyAll
    [.addTable "origin", .addTable "target",
     .insertColumn 0 0 "o_1" (.linkType 1) false .weak,
     .insertColumn 1 0 "t_1" .intType false .weak,
     .addEmptyRow 0 1, .addEmptyRow 1 1,
     .setLink 0 0 0 (some 0)]

/-- Concrete store used by the set-unique witness: one table with a
non-nullable Int column and two default rows, with row 0 then set to
123 (the setup of test `Replication_SetUnique`). -/
def demoUniqueGroup : Group :=
  emptyGroup.applyAll
    [.addTable "table", .insertColumn 0 0 "c1" .intType false .weak,
     .addEmptyRow 0 2, .setInt 0 0 0 123]

end Repl

/-- Appending one node to a query conjoins its condition. -/
theorem Query.matches_append (nodes : List QueryCond) (n : QueryCond) (row : QRow) :
    Query.matches ⟨nodes ++ [n]⟩ row = (Query.matches ⟨nodes⟩ row && evalCond row n) := by
  simp [Query.matches, List.all_append]

/-- C8 — `GreaterEqual(col, LLONG_MIN)` and `LessEqual(col, LLONG_MAX)`
add no condition node, so the query and its match set are unchanged;
and for `LLONG_MIN < v`, `GreaterEqual(col, v)` is the query
`Greater(col, v - 1)` and matches exactly the rows whose column value
is `≥ v`, with the dual equivalence for `LessEqual(col, w)` when
`w < LLONG_MAX`. -/
theorem greaterEqual_llong_min_noop_and_ge_semantics
    (q : Query) (c : Nat) (rows : List QRow) (v w : Int)
    (hv : LLONG_MIN < v) (hw : w < LLONG_MAX) :
    q.GreaterEqual c LLONG_MIN = q ∧
    q.LessEqual c LLONG_MAX = q ∧
    (q.GreaterEqual c LLONG_MIN).matchSet rows = q.matchSet rows ∧
    (q.LessEqual c LLONG_MAX).matchSet rows = q.matchSet rows ∧
    q.GreaterEqual c v = q.Greater c (v - 1) ∧
    (∀ row, (q.GreaterEqual c v).matches row
        = (q.matches row && decide (v ≤ row.ints c))) ∧
    q.LessEqual c w = q.Less c (w + 1) ∧
    (∀ row, (q.LessEqual c w).matches row
        = (q.matches row && decide (row.ints c ≤ w))) := by
  have hmin : ¬ LLONG_MIN < LLONG_MIN := lt_irrefl _
  have hmax : ¬ LLONG_MAX < LLONG_MAX := lt_irrefl _
  have hge : q.GreaterEqual c LLONG_MIN = q := by
    simp [Query.GreaterEqual, hmin]
  have hle : q.LessEqual c LLONG_MAX = q := by
    simp [Query.LessEqual, hmax]
  refine ⟨hge, hle, by rw [hge], by rw [hle], ?_, ?_, ?_, ?_⟩
  · simp [Query.GreaterEqual, hv]
  · intro row
    have : q.GreaterEqual c v = q.Greater c (v - 1) := by
      simp [Query.GreaterEqual, hv]
    rw [this]
    show Query.matches ⟨q.nodes ++ [.intGreater c (v - 1)]⟩ row = _
    rw [Query.matches_append]
    have hd : decide (v - 1 < row.ints c) = decide (v ≤ row.ints c) := by
      rw [decide_eq_decide]; omega
    simp [evalCond, hd]
  · simp [Query.LessEqual, hw]
  · intro row
    have hq : q.LessEqual c w = q.Less c (w + 1) := by
      simp [Query.LessEqual, hw]
    rw [hq]
    show Query.matches ⟨q.nodes ++ [.intLess c (w + 1)]⟩ row = _
    rw [Query.matches_append]
    have hd : decide (row.ints c < w + 1) = decide (row.ints c ≤ w) := by
      rw [decide_eq_decide]; omega
    simp [evalCond, hd]

/-- C8 witness: the theorem instantiated at a concrete query, column
and bounds. -/
theorem greaterEqual_llong_min_noop_witness :
    LLONG_MIN < (5 : Int) ∧ (5 : Int) < LLONG_MAX ∧
    Query.GreaterEqual Query.empty 0 LLONG_MIN = Query.empty := by
  refine ⟨by decide, by decide, ?_⟩
  exact (greaterEqual_llong_min_noop_and_ge_semantics Query.empty 0 [] 5 5
    (by decide) (by decide)).1

/-- C9 — `XQueryAccessorString::BeginsWith` builds exactly the query
`XQueryAccessorString::Equal` builds (the source forwards to
`Query::Equal`), so in the case-sensitive case it matches a row exactly
when the row's string equals the given value; in particular the row
`"abc"` does not match `BeginsWith("ab")` although `"ab"` is a proper
prefix of `"abc"`. -/
theorem xQueryAccessorString_beginsWith_is_equal
    (a : XQueryAccessorString) (value : String) (cs : Bool) :
    a.BeginsWith value cs = a.Equal value cs ∧
    (∀ row, (a.BeginsWith value true).matches row
        = (a.m_query.matches row && (row.strs a.m_column_id == value))) ∧
    (XQueryAccessorString.BeginsWith ⟨Query.empty, 0⟩ "ab" true).matches
      ⟨fun _ => 0, fun _ => false, fun _ => "abc"⟩ = false ∧
    "ab".data.isPrefixOf "abc".data = true := by
  refine ⟨rfl, ?_, by decide, by decide⟩
  intro row
  show Query.matches ⟨a.m_query.nodes ++ [.strNode .equal a.m_column_id value]⟩ row = _
  rw [Query.matches_append]
  simp [evalCond]

/-- C10 — `ColumnMixed::GetType` never exposes the internal
negative-encoded tags: at every valid index it returns a public column
type; a stored `MIXED_COL_INT_NEG` is reported as `COLUMN_TYPE_INT` and
a stored `MIXED_COL_DOUBLE_NEG` as `COLUMN_TYPE_DOUBLE`. -/
theorem columnMixed_getType_public
    (m : ColumnMixed) (ndx : Nat) (h : ndx < m.m_types.length) :
    (∃ ct, m.GetType ndx = some ct) ∧
    (m.m_types.get? ndx = some .mixedIntNeg → m.GetType ndx = some .typeInt) ∧
    (m.m_types.get? ndx = some .mixedDoubleNeg → m.GetType ndx = some .typeDouble) ∧
    (∀ ct, m.GetType ndx = some ct →
      ct ∈ [ColumnType.typeInt, .typeBool, .typeDate, .typeFloat, .typeDouble,
            .typeString, .typeBinary, .typeTable]) := by
  obtain ⟨tag, htag⟩ : ∃ tag, m.m_types.get? ndx = some tag :=
    ⟨_, List.get?_eq_get h⟩
  have hgt : m.GetType ndx = some (mixedTagType tag) := by
    rw [ColumnMixed.GetType, htag]; rfl
  refine ⟨⟨mixedTagType tag, hgt⟩, ?_, ?_, ?_⟩
  · intro htag2
    rw [htag] at htag2
    cases htag2
    rw [hgt]
    rfl
  · intro htag2
    rw [htag] at htag2
    cases htag2
    rw [hgt]
    rfl
  · intro ct hct
    rw [hgt] at hct
    cases hct
    cases tag <;> decide

/-- C10 witness: a one-cell Mixed column storing `MIXED_COL_INT_NEG`
reports `COLUMN_TYPE_INT` at index 0. -/
theorem columnMixed_getType_public_witness :
    (0 : Nat) < 1 ∧
    ColumnMixed.GetType ⟨[MixedColType.mixedIntNeg]⟩ 0 = some ColumnType.typeInt := by
  refine ⟨by decide, ?_⟩
  exact (columnMixed_getType_public ⟨[MixedColType.mixedIntNeg]⟩ 0 (by decide)).2.1 (by decide)

namespace Repl

/-- ULEB128 decoding inverts the fuel-driven encoder whenever the fuel
is at least the encoded value. -/
theorem readULEB_encodeAux (fuel : Nat) :
    ∀ n rest, n ≤ fuel → readULEB (encodeULEBAux fuel n ++ rest) = some (n, rest) := by
  induction fuel with
  | zero =>
    intro n rest hn
    have : n = 0 := Nat.le_zero.mp hn
    subst this
    simp [encodeULEBAux, readULEB]
  | succ fuel ih =>
    intro n rest hn
    rw [encodeULEBAux]
    split
    · next h => simp [readULEB, h]
    · next h =>
      have h2 : ¬ n % 128 + 128 < 128 := by omega
      have hd : n / 128 ≤ fuel := by
        have hlt : n / 128 < n := Nat.div_lt_self (by omega) (by omega)
        omega
      simp [readULEB, h2, ih _ rest hd]
      omega

/-- ULEB128 decoding inverts encoding, for any trailing bytes. -/
theorem readULEB_encode (n : Nat) : ∀ rest, readULEB (encodeULEB n ++ rest) = some (n, rest) :=
  fun rest => readULEB_encodeAux n n rest le_rfl

/-- Zigzag decoding inverts zigzag encoding. -/
theorem unzigzag_zigzag (i : Int) : unzigzag (zigzag i) = i := by
  unfold zigzag unzigzag
  split <;> split <;> omega

/-- Signed-integer decoding inverts encoding. -/
theorem readInt_encode (i : Int) (rest : List Nat) :
    readInt (encodeInt i ++ rest) = some (i, rest) := by
  simp [readInt, encodeInt, readULEB_encode, unzigzag_zigzag]

/-- Character-sequence decoding inverts encoding. -/
theorem readNChars_encode (cs : List Char) :
    ∀ rest, readNChars cs.length ((cs.flatMap fun ch => encodeULEB ch.toNat) ++ rest)
      = some (cs, rest) := by
  induction cs with
  | nil => intro rest; simp [readNChars]
  | cons c cs ih =>
    intro rest
    simp [readNChars, List.append_assoc, readULEB_encode, ih, Char.ofNat_toNat]

/-- String decoding inverts encoding. -/
theorem readStr_encode (s : String) (rest : List Nat) :
    readStr (encodeStr s ++ rest) = some (s, rest) := by
  cases s with
  | mk data =>
    simp [readStr, encodeStr, List.append_assoc, readULEB_encode, readNChars_encode]

/-- Unsigned-sequence decoding inverts encoding. -/
theorem readNNats_encode (l : List Nat) :
    ∀ rest, readNNats l.length (l.flatMap encodeULEB ++ rest) = some (l, rest) := by
  induction l with
  | nil => intro rest; simp [readNNats]
  | cons x l ih =>
    intro rest
    simp [readNNats, List.append_assoc, readULEB_encode, ih]

/-- Length-prefixed unsigned-sequence decoding inverts encoding. -/
theorem readNats_encode (l : List Nat) (rest : List Nat) :
    readNats (encodeNats l ++ rest) = some (l, rest) := by
  simp [readNats, encodeNats, List.append_assoc, readULEB_encode, readNNats_encode]

/-- Optional-row-index decoding inverts encoding. -/
theorem readOptNat_encode (x : Option Nat) (rest : List Nat) :
    readOptNat (encodeOptNat x ++ rest) = some (x, rest) := by
  cases x <;> simp [readOptNat, encodeOptNat, readULEB_encode]

/-- Boolean decoding inverts encoding. -/
theorem readBool_encode (b : Bool) (rest : List Nat) :
    readBool (encodeBool b ++ rest) = some (b, rest) := by
  cases b <;> simp [readBool, encodeBool, readULEB_encode]

/-- Strength decoding inverts encoding. -/
theorem readStrength_encode (s : Strength) (rest : List Nat) :
    readStrength (encodeStrength s ++ rest) = some (s, rest) := by
  cases s <;> simp [readStrength, encodeStrength, readULEB_encode]

/-- Data-type decoding inverts encoding. -/
theorem readDataType_encode (d : DataType) (rest : List Nat) :
    readDataType (encodeDataType d ++ rest) = some (d, rest) := by
  cases d <;> simp [readDataType, encodeDataType, List.append_assoc, readULEB_encode]

/-- Spec §8 law 2: encode-then-parse is the identity on instructions,
for any trailing bytes. -/
theorem parseInstr_encode (i : Instr) (rest : List Nat) :
    parseInstr (encodeInstr i ++ rest) = some (i, rest) := by
  cases i <;>
    simp [parseInstr, encodeInstr, List.append_assoc, readULEB_encode, readStr_encode,
      readInt_encode, readBool_encode, readStrength_encode, readDataType_encode,
      readOptNat_encode, readNats_encode]

/-- Every encoded instruction starts with its opcode byte. -/
theorem encodeInstr_ne_nil (i : Instr) : encodeInstr i ≠ [] := by
  cases i <;> simp [encodeInstr]

/-- Unfolding of `parseChangesetF` on a non-empty byte list with
positive fuel. -/
theorem parseChangesetF_cons (fuel b : Nat) (bs : List Nat) :
    parseChangesetF (fuel + 1) (b :: bs) =
      (parseInstr (b :: bs)).bind fun p =>
        (parseChangesetF fuel p.2).map fun l => p.1 :: l := rfl

/-- Changeset parsing inverts encoding, given at least as much fuel as
there are bytes. -/
theorem parseChangesetF_encode (l : List Instr) :
    ∀ fuel, (changesetOf l).length ≤ fuel → parseChangesetF fuel (changesetOf l) = some l := by
  induction l with
  | nil => intro fuel _; rw [changesetOf]; simp [parseChangesetF]
  | cons i l ih =>
    intro fuel hfuel
    have hcs : changesetOf (i :: l) = encodeInstr i ++ changesetOf l := by
      simp [changesetOf]
    obtain ⟨b, tail, hb⟩ : ∃ b tail, encodeInstr i = b :: tail := by
      match h : encodeInstr i with
      | [] => exact absurd h (encodeInstr_ne_nil i)
      | b :: tail => exact ⟨b, tail, rfl⟩
    have hlen : (changesetOf l).length + 1 ≤ fuel := by
      rw [hcs, List.length_append, hb] at hfuel
      simp at hfuel
      omega
    match fuel with
    | 0 => omega
    | fuel + 1 =>
      rw [hcs, hb, List.cons_append, parseChangesetF_cons, ← List.cons_append, ← hb,
        parseInstr_encode]
      simp [ih fuel (by omega)]

/-- Spec §8 law 2 at changeset granularity: parsing a recorded
changeset yields back the recorded instruction sequence. -/
theorem parseChangeset_encode (l : List Instr) :
    parseChangeset (changesetOf l) = some l :=
  parseChangesetF_encode l _ le_rfl

/-- Replaying the recorded changesets of a transaction sequence drives
the target through exactly the source's instruction applications. -/
theorem replayChangesets_encode (txns : List (List Instr)) :
    ∀ g : Group, g.replayChangesets (txns.map changesetOf) = some (g.applyTxns txns) := by
  induction txns with
  | nil => intro g; simp [Group.replayChangesets, Group.applyTxns]
  | cons txn txns ih =>
    intro g
    rw [List.map_cons, Group.replayChangesets, parseChangeset_encode]
    show (g.applyAll txn).replayChangesets (txns.map changesetOf) = _
    rw [ih (g.applyAll txn)]
    simp [Group.applyTxns]

/-- Observable equality is reflexive. -/
theorem ObsEq.refl (g : Group) : ObsEq g g :=
  ⟨rfl, fun _ => rfl, fun _ _ => rfl, fun _ => rfl, fun _ _ _ => rfl, fun _ _ _ _ => rfl⟩

/-- C1 — For every finite sequence of mutations performed inside
committed write transactions on a source store, replaying the resulting
changesets in commit order onto a freshly created empty store succeeds
and yields a store observably equal to the source: same table names in
the same order, same column counts and types, same row counts, same
cell values, and the same backlink count for every (target row, origin
table, origin column) triple. -/
theorem replay_reproduces_source_state (txns : List (List Instr)) :
    ∃ b, Group.replayChangesets emptyGroup (txns.map changesetOf) = some b ∧
      ObsEq b (Group.applyTxns emptyGroup txns) :=
  ⟨Group.applyTxns emptyGroup txns, replayChangesets_encode txns emptyGroup,
    ObsEq.refl _⟩

/-- Writing back the element a list already holds leaves it unchanged. -/
theorem list_set_get_self {α : Type} (l : List α) :
    ∀ (i : Nat) (a : α), l.get? i = some a → l.set i a = l := by
  induction l with
  | nil => intro i a h; cases h
  | cons x l ih =>
    intro i a h
    cases i with
    | zero => cases h; rfl
    | succ i => simpa using ih i a h

/-- No row loses a reference when the state does not change. -/
theorem lostRefCands_self (g : Group) : g.lostRefCands g = [] := by
  unfold Group.lostRefCands
  apply List.flatMap_eq_nil_iff.mpr
  intro t _
  cases h : g.tables.get? t <;> simp

/-- The cascade engine does nothing when no worklist entry is
actionable. -/
theorem cascadeF_of_skip_none (fuel : Nat) (g : Group) (wl : List (Nat × Nat))
    (h : g.cascadeSkip wl = none) : Group.cascadeF fuel g wl = (g, []) := by
  rw [Group.cascadeF, h]

/-- An instruction whose store mutation is the identity applies as the
identity: there are no cascade candidates and the engine is not run. -/
theorem applyInstr_of_mutateRaw_self (g : Group) (i : Instr) (h : g.mutateRaw i = g) :
    g.applyInstr i = g := by
  have hc : g.instrCands i = [] := by
    unfold Group.instrCands
    rw [h, lostRefCands_self]
    split <;> rfl
  unfold Group.applyInstr
  rw [h, hc, cascadeF_of_skip_none]
  rfl

/-- Re-assigning to a Link cell the target it already holds leaves the
store mutation-free. -/
theorem mutateRaw_setLink_same (g : Group) (t c r : Nat) (tgt : Option Nat)
    (h : g.cellAt t c r = some (.linkV tgt)) :
    g.mutateRaw (.setLink t c r tgt) = g := by
  unfold Group.cellAt Group.table? at h
  obtain ⟨tb, htb, h⟩ := Option.bind_eq_some.mp h
  obtain ⟨spec, hspec, h⟩ := Option.bind_eq_some.mp h
  obtain ⟨row, hrow, hcell⟩ := Option.bind_eq_some.mp h
  show Group.set_cell g t c r (.linkV tgt) = g
  unfold Group.set_cell
  simp only [htb, hspec]
  split
  · have h1 : row.cells.set c (Value.linkV tgt) = row.cells :=
      list_set_get_self _ _ _ hcell
    have h2 : tb.rows.set r { rid := row.rid, cells := row.cells } = tb.rows := by
      rw [show ({ rid := row.rid, cells := row.cells } : Row) = row from rfl]
      exact list_set_get_self _ _ _ hrow
    simp only [Table.setCell, hrow, h1, h2]
    rw [show Table.mk tb.tname tb.cols tb.rows tb.nextId = tb from rfl]
    rw [list_set_get_self _ _ _ htb]
  · rfl

/-- Re-assigning to a LinkList slot the target it already holds leaves
the store mutation-free. -/
theorem mutateRaw_linkListSet_same (g : Group) (t c r i x tgtT : Nat) (xs : List Nat)
    (hcell : g.listCell t c r = some (tgtT, xs)) (hx : xs.get? i = some x) :
    g.mutateRaw (.linkListSet t c r i x) = g := by
  have hparts : ∃ tb row, g.tables.get? t = some tb ∧ tb.rows.get? r = some row ∧
      row.cells.get? c = some (.listV xs) := by
    unfold Group.listCell at hcell
    obtain ⟨tb, htb, hcell⟩ := Option.bind_eq_some.mp hcell
    obtain ⟨spec, hspec, hcell⟩ := Option.bind_eq_some.mp hcell
    split at hcell
    · obtain ⟨row, hrow, hcell⟩ := Option.bind_eq_some.mp hcell
      split at hcell
      · next heq =>
        cases hcell
        exact ⟨tb, row, htb, hrow, heq⟩
      · cases hcell
    · cases hcell
  obtain ⟨tb, row, htb, hrow, hlist⟩ := hparts
  show (match g.listCell t c r with
    | some (tgt, xs) =>
        if i < xs.length && x < (g.rowCount tgt).getD 0 then
          g.writeListCell t c r (xs.set i x)
        else g
    | none => g) = g
  rw [hcell]
  show (if (decide (i < xs.length) && decide (x < (g.rowCount tgtT).getD 0)) = true then
      g.writeListCell t c r (xs.set i x) else g) = g
  split
  · rw [list_set_get_self xs i x hx]
    have h1 : row.cells.set c (Value.listV xs) = row.cells :=
      list_set_get_self _ _ _ hlist
    have h2 : tb.rows.set r { rid := row.rid, cells := row.cells } = tb.rows := by
      rw [show ({ rid := row.rid, cells := row.cells } : Row) = row from rfl]
      exact list_set_get_self _ _ _ hrow
    simp only [Group.writeListCell, htb, Table.setCell, hrow, h1, h2]
    rw [show Table.mk tb.tname tb.cols tb.rows tb.nextId = tb from rfl]
    rw [list_set_get_self _ _ _ htb]
  · rfl

/-- C3 — assigning a Strong Link cell or a Strong LinkList element the
value it already holds is a no-op: the resulting store equals the store
before, so in particular the old target row is never cascade-deleted by
such an assignment. -/
theorem same_value_link_assignment_noop (g : Group) (t c r i : Nat)
    (tgt : Option Nat) (tgtT x : Nat) (xs : List Nat) :
    (g.cellAt t c r = some (.linkV tgt) → g.applyInstr (.setLink t c r tgt) = g) ∧
    (g.listCell t c r = some (tgtT, xs) → xs.get? i = some x →
      g.applyInstr (.linkListSet t c r i x) = g) :=
  ⟨fun h => applyInstr_of_mutateRaw_self g _ (mutateRaw_setLink_same g t c r tgt h),
   fun h hx => applyInstr_of_mutateRaw_self g _ (mutateRaw_linkListSet_same g t c r i x tgtT xs h hx)⟩

/-- C3 witness: in the concrete cascade store, re-assigning
`origin[1].link = target[1]` (its current value) and re-assigning
`origin[1].list[1] = 1` (its current value) both leave the store
unchanged, so the strongly-held target row survives. -/
theorem same_value_link_assignment_noop_witness :
    demoLinkGroup.applyInstr (.setLink 0 0 1 (some 1)) = demoLinkGroup ∧
    demoLinkListGroup.applyInstr (.linkListSet 0 0 1 1 1) = demoLinkListGroup :=
  ⟨(same_value_link_assignment_noop demoLinkGroup 0 0 1 0 (some 1) 0 0 []).1 (by decide),
   (same_value_link_assignment_noop demoLinkListGroup 0 0 1 1 none 1 1 [0, 1]).2
     (by decide) (by decide)⟩

/-- C5 — nullness survives encoding and replay: for every instruction
sequence, `is_null` on the replayed store equals `is_null` on the
source store at every cell; and in the S4 scenario (nullable String and
Binary columns, row 1 set to the empty string/binary, row 2 set to
null, row 0 left at its default) the replayed store reports row 0 null,
row 1 non-null with the empty value, and row 2 null. -/
theorem null_distinct_from_empty_after_replay (txns : List (List Instr)) :
    (∃ b, Group.replayChangesets emptyGroup (txns.map changesetOf) = some b ∧
      ∀ t c r, b.isNullAt t c r = (Group.applyTxns emptyGroup txns).isNullAt t c r) ∧
    (Group.replayChangesets emptyGroup
        [changesetOf [.addTable "table", .insertColumn 0 0 "c1" .stringType true .weak,
          .insertColumn 0 1 "b1" .binaryType true .weak, .addEmptyRow 0 3,
          .setString 0 0 1 "", .setNull 0 0 2, .setBinary 0 1 1 [], .setNull 0 1 2]]).map
      (fun b => ((b.isNullAt 0 0 0, b.isNullAt 0 0 1, b.isNullAt 0 0 2),
                 (b.isNullAt 0 1 0, b.isNullAt 0 1 1, b.isNullAt 0 1 2),
                 (b.cellAt 0 0 1, b.cellAt 0 1 1)))
      = some ((some true, some false, some true), (some true, some false, some true),
              (some (Value.stringV ""), some (Value.binaryV []))) := by
  refine ⟨⟨Group.applyTxns emptyGroup txns, replayChangesets_encode txns emptyGroup,
    fun _ _ _ => rfl⟩, by decide⟩

/-- Zipping a column list against the pointwise image of its own zip. -/
theorem zip_map_zip {κ ν : Type} (cols : List κ) (f : κ × ν → ν) :
    ∀ cells : List ν,
      cols.zip ((cols.zip cells).map f) = (cols.zip cells).map fun sc => (sc.1, f sc) := by
  induction cols with
  | nil => intro cells; rfl
  | cons c cols ih =>
    intro cells
    cases cells with
    | nil => rfl
    | cons v cells => simp [List.zip_cons_cons, ih]

/-- A column targets at most one table. -/
theorem ColSpec.targets_unique (spec : ColSpec) (a b : Nat)
    (ha : spec.targets a = true) (hb : spec.targets b = true) : a = b := by
  unfold ColSpec.targets at ha hb
  cases h : spec.dtype <;> rw [h] at ha hb <;> simp_all

/-- A Strong-targeting column targets. -/
theorem ColSpec.targetsStrong_targets (spec : ColSpec) (t : Nat)
    (h : spec.targetsStrong t = true) : spec.targets t = true := by
  unfold ColSpec.targetsStrong at h
  exact (Bool.and_eq_true_iff.mp h).1

/-- Reference fix-up commutes with reference extraction. -/
theorem cellRefs_fixValue (fix : Nat → Option Nat) (v : Value) :
    cellRefs (fixValue fix v) = (cellRefs v).filterMap fix := by
  cases v with
  | linkV o =>
    cases o with
    | none => rfl
    | some x =>
      show cellRefs (.linkV (fix x)) = List.filterMap fix [x]
      cases h : fix x <;> simp [cellRefs, h]
  | listV xs => rfl
  | nullV => rfl
  | intV v => rfl
  | boolV b => rfl
  | stringV s => rfl
  | binaryV b => rfl
  | timestampV s n => rfl

/-- Fixing references into `t` does not disturb the references selected
by a predicate that excludes `t`-targeting columns. -/
theorem rowRefsTo_fixRowCells_ne (cols : List ColSpec) (cells : List Value) (t : Nat)
    (fix : Nat → Option Nat) (p : ColSpec → Bool)
    (hp : ∀ spec, p spec = true → spec.targets t = false) :
    rowRefsTo cols (fixRowCells cols cells t fix) p = rowRefsTo cols cells p := by
  unfold rowRefsTo fixRowCells
  rw [zip_map_zip, List.flatMap_map]
  apply List.flatMap_congr
  intro sc _
  by_cases hps : p sc.1 = true
  · have ht : sc.1.targets t = false := hp _ hps
    simp [hps, ht]
  · simp [hps]

/-- Fixing references into `t` filters exactly the Strong references
into `t`. -/
theorem rowRefsTo_fixRowCells_self (cols : List ColSpec) (cells : List Value) (t : Nat)
    (fix : Nat → Option Nat) :
    rowRefsTo cols (fixRowCells cols cells t fix) (fun spec => spec.targetsStrong t)
      = (rowRefsTo cols cells fun spec => spec.targetsStrong t).filterMap fix := by
  unfold rowRefsTo fixRowCells
  rw [zip_map_zip, List.flatMap_map, List.filterMap_flatMap]
  apply List.flatMap_congr
  intro sc _
  by_cases hps : sc.1.targetsStrong t = true
  · have ht : sc.1.targets t = true := ColSpec.targetsStrong_targets _ _ hps
    simp [hps, ht, cellRefs_fixValue]
  · simp [hps]

/-- Table lookup after `modifyTable` at a different index. -/
theorem modifyTable_table_ne (g : Group) (t o : Nat) (f : Table → Table) (hne : o ≠ t) :
    (g.modifyTable t f).table? o = g.table? o := by
  unfold Group.modifyTable
  cases h : g.tables.get? t with
  | none => rfl
  | some tb =>
    show (⟨g.tables.set t (f tb)⟩ : Group).table? o = g.table? o
    unfold Group.table?
    simp [List.get?_eq_getElem?, List.getElem?_set_ne (Ne.symm hne)]

/-- Table lookup after `modifyTable` at the modified index. -/
theorem modifyTable_table_self (g : Group) (t : Nat) (f : Table → Table) (tb : Table)
    (htb : g.table? t = some tb) : (g.modifyTable t f).table? t = some (f tb) := by
  unfold Group.table? at htb
  unfold Group.modifyTable
  rw [htb]
  show (⟨g.tables.set t (f tb)⟩ : Group).table? t = some (f tb)
  unfold Group.table?
  have hlt : t < g.tables.length := (List.get?_eq_some.mp htb).1
  simp [List.get?_eq_getElem?, List.getElem?_set_self, hlt]

/-- Table lookup after fixing references: the table keeps its name,
columns and ghost ids; only cell values change. -/
theorem fixRefsInto_table (g : Group) (t : Nat) (fix : Nat → Option Nat) (o : Nat) :
    (g.fixRefsInto t fix).table? o = (g.table? o).map fun tb =>
      { tb with rows := tb.rows.map fun row =>
          { row with cells := fixRowCells tb.cols row.cells t fix } } := by
  unfold Group.fixRefsInto Group.table?
  simp [List.get?_map]

/-- Ghost ids are untouched by reference fixing. -/
theorem idAt_fixRefsInto (g : Group) (t : Nat) (fix : Nat → Option Nat) (u x : Nat) :
    (g.fixRefsInto t fix).idAt u x = g.idAt u x := by
  unfold Group.idAt
  rw [fixRefsInto_table]
  cases h : g.table? u with
  | none => rfl
  | some tb =>
    show ((tb.rows.map fun row =>
        { rid := row.rid, cells := fixRowCells tb.cols row.cells t fix }).get? x).map Row.rid
      = (tb.rows.get? x).map Row.rid
    rw [List.get?_map]
    cases tb.rows.get? x <;> rfl

/-- Column specifications are untouched by reference fixing. -/
theorem colSpec?_fixRefsInto (g : Group) (t : Nat) (fix : Nat → Option Nat) (o c : Nat) :
    (g.fixRefsInto t fix).colSpec? o c = g.colSpec? o c := by
  unfold Group.colSpec?
  rw [fixRefsInto_table]
  cases h : g.table? o <;> rfl

/-- Strong references into a table other than the fixed one are
untouched by reference fixing. -/
theorem strongRefsTo_fixRefsInto_ne (g : Group) (t : Nat) (fix : Nat → Option Nat)
    (u : Nat) (hu : u ≠ t) :
    (g.fixRefsInto t fix).strongRefsTo u = g.strongRefsTo u := by
  have hs : (g.fixRefsInto t fix).tables = g.tables.map fun tb =>
      { tb with rows := tb.rows.map fun row =>
          { row with cells := fixRowCells tb.cols row.cells t fix } } := rfl
  unfold Group.strongRefsTo
  rw [hs, List.flatMap_map]
  apply List.flatMap_congr
  intro tb _
  have ht : Table.strongRefsTo
      { tb with rows := tb.rows.map fun row =>
          { row with cells := fixRowCells tb.cols row.cells t fix } } u
      = (tb.rows.map fun row =>
          { row with cells := fixRowCells tb.cols row.cells t fix }).flatMap
        fun row => rowRefsTo tb.cols row.cells fun spec => spec.targetsStrong u := rfl
  rw [ht, List.flatMap_map]
  apply List.flatMap_congr
  intro row _
  apply rowRefsTo_fixRowCells_ne
  intro spec hsp
  by_cases ht : spec.targets t = true
  · have := ColSpec.targets_unique spec u t (ColSpec.targetsStrong_targets _ _ hsp) ht
    exact absurd this hu
  · exact Bool.not_eq_true _ ▸ ht

/-- Strong references into the fixed table are exactly filtered by the
fix-up. -/
theorem strongRefsTo_fixRefsInto_self (g : Group) (t : Nat) (fix : Nat → Option Nat) :
    (g.fixRefsInto t fix).strongRefsTo t = (g.strongRefsTo t).filterMap fix := by
  have hs : (g.fixRefsInto t fix).tables = g.tables.map fun tb =>
      { tb with rows := tb.rows.map fun row =>
          { row with cells := fixRowCells tb.cols row.cells t fix } } := rfl
  unfold Group.strongRefsTo
  rw [hs, List.flatMap_map, List.filterMap_flatMap]
  apply List.flatMap_congr
  intro tb _
  have ht : Table.strongRefsTo
      { tb with rows := tb.rows.map fun row =>
          { row with cells := fixRowCells tb.cols row.cells t fix } } t
      = (tb.rows.map fun row =>
          { row with cells := fixRowCells tb.cols row.cells t fix }).flatMap
        fun row => rowRefsTo tb.cols row.cells fun spec => spec.targetsStrong t := rfl
  rw [ht, List.flatMap_map]
  rw [show tb.strongRefsTo t = tb.rows.flatMap (fun row =>
    rowRefsTo tb.cols row.cells fun spec => spec.targetsStrong t) from rfl]
  rw [List.filterMap_flatMap]
  apply List.flatMap_congr
  intro row _
  exact rowRefsTo_fixRowCells_self tb.cols row.cells t fix

/-- Replacing a list entry whose image under `f` is unchanged leaves the
flat image unchanged. -/
theorem flatMap_set_eq {α β : Type} (l : List α) (f : α → List β) :
    ∀ (i : Nat) (b : α), (∀ a, l.get? i = some a → f b = f a) →
      (l.set i b).flatMap f = l.flatMap f := by
  induction l with
  | nil => intro i b _; rfl
  | cons x l ih =>
    intro i b h
    cases i with
    | zero => simp [List.flatMap_cons, h x rfl]
    | succ i => simp [List.flatMap_cons, ih i b (fun a ha => h a ha)]

/-- A store none of whose columns strongly target `t` holds no Strong
references into `t`. -/
theorem strongRefsTo_weak_nil (g : Group) (t : Nat)
    (hIn : ∀ o c spec, g.colSpec? o c = some spec → spec.targets t = true →
      spec.strength = Strength.weak) :
    g.strongRefsTo t = [] := by
  unfold Group.strongRefsTo
  apply List.flatMap_eq_nil_iff.mpr
  intro tb htbm
  unfold Table.strongRefsTo
  apply List.flatMap_eq_nil_iff.mpr
  intro row _
  unfold rowRefsTo
  apply List.flatMap_eq_nil_iff.mpr
  intro sc hsc
  have hspec : sc.1 ∈ tb.cols := (List.of_mem_zip hsc).1
  by_cases hst : sc.1.targetsStrong t = true
  · exfalso
    obtain ⟨o, ho⟩ := List.get?_of_mem htbm
    obtain ⟨c, hc⟩ := List.get?_of_mem hspec
    have hcs : g.colSpec? o c = some sc.1 := by
      unfold Group.colSpec? Group.table?
      rw [ho]
      exact hc
    have hweak := hIn o c sc.1 hcs (ColSpec.targetsStrong_targets _ _ hst)
    unfold ColSpec.targetsStrong at hst
    rw [hweak] at hst
    simp at hst
  · simp [hst]

/-- When no row changes its Strong-reference count there are no cascade
candidates. -/
theorem lostRefCands_of_counts_eq (g g2 : Group)
    (h : ∀ t ρ, g2.idStrongRefCount t ρ = g.idStrongRefCount t ρ) :
    g.lostRefCands g2 = [] := by
  unfold Group.lostRefCands
  apply List.flatMap_eq_nil_iff.mpr
  intro t _
  cases htb : g.tables.get? t with
  | none => rfl
  | some tb =>
    have hf : ((tb.rows.map Row.rid).filter fun ρ =>
        g2.idStrongRefCount t ρ < g.idStrongRefCount t ρ) = [] := by
      apply List.filter_eq_nil_iff.mpr
      intro ρ _
      rw [h t ρ]
      simp
    show ((tb.rows.map Row.rid).filter fun ρ =>
        g2.idStrongRefCount t ρ < g.idStrongRefCount t ρ).map (fun ρ => (t, ρ)) = []
    rw [hf]
    rfl

/-- Ghost ids of an unmodified table are untouched by `modifyTable`. -/
theorem idAt_modifyTable_ne (g : Group) (t : Nat) (f : Table → Table) (u x : Nat)
    (hu : u ≠ t) : (g.modifyTable t f).idAt u x = g.idAt u x := by
  unfold Group.idAt
  rw [modifyTable_table_ne g t u f hu]

/-- Shape of the cleared table: rows gone, everything else kept. -/
theorem clear_table_table_self (g : Group) (t : Nat) (tb : Table)
    (htb : g.table? t = some tb) :
    (g.clear_table t).table? t = some (Table.mk tb.tname tb.cols [] tb.nextId) := by
  unfold Group.clear_table
  unfold Group.table? at htb
  rw [htb]
  have h1 : (g.fixRefsInto t fun _ => none).table? t = some
      { tb with rows := tb.rows.map fun row =>
          { row with cells := fixRowCells tb.cols row.cells t fun _ => none } } := by
    rw [fixRefsInto_table]
    unfold Group.table?
    rw [htb]
    rfl
  have h2 := modifyTable_table_self (g.fixRefsInto t fun _ => none) t
    (fun tb2 => { tb2 with rows := [] }) _ h1
  exact h2

/-- Shape of the other tables after a clear: rows kept, with every
reference into the cleared table dropped from their cells. -/
theorem clear_table_table_ne (g : Group) (t o : Nat) (tb : Table)
    (htb : g.table? t = some tb) (hne : o ≠ t) :
    (g.clear_table t).table? o = (g.table? o).map fun tbo =>
      { tbo with rows := tbo.rows.map fun row =>
          { row with cells := fixRowCells tbo.cols row.cells t fun _ => none } } := by
  unfold Group.clear_table
  unfold Group.table? at htb
  rw [htb]
  rw [modifyTable_table_ne _ t o _ hne, fixRefsInto_table]

/-- Column specifications survive a clear. -/
theorem colSpec?_clear_table (g : Group) (t o c : Nat) :
    (g.clear_table t).colSpec? o c = g.colSpec? o c := by
  cases htb : g.table? t with
  | none =>
    unfold Group.clear_table
    unfold Group.table? at htb
    rw [htb]
  | some tb =>
    by_cases ho : o = t
    · subst ho
      unfold Group.colSpec?
      rw [clear_table_table_self g o tb htb, htb]
      rfl
    · unfold Group.colSpec?
      rw [clear_table_table_ne g t o tb htb ho]
      cases g.table? o <;> rfl

/-- Under the C7 premises a clear changes no Strong-reference count:
the cleared table held no Strong references (all its columns are
non-Strong) and no Strong column targeted it. -/
theorem idStrongRefCount_clear_eq (g : Group) (t : Nat) (tb : Table)
    (htb : g.table? t = some tb)
    (hIn : ∀ o c spec, g.colSpec? o c = some spec → spec.targets t = true →
      spec.strength = Strength.weak)
    (hOut : ∀ spec ∈ tb.cols, ∀ u, spec.targetsStrong u = false) :
    ∀ u ρ, (g.clear_table t).idStrongRefCount u ρ = g.idStrongRefCount u ρ := by
  intro u ρ
  by_cases hu : u = t
  · subst hu
    have h1 : g.strongRefsTo u = [] := strongRefsTo_weak_nil g u hIn
    have h2 : (g.clear_table u).strongRefsTo u = [] := by
      apply strongRefsTo_weak_nil
      intro o c spec hcs
      rw [colSpec?_clear_table] at hcs
      exact hIn o c spec hcs
    unfold Group.idStrongRefCount
    rw [h1, h2]
    simp
  · -- references into `u` are untouched; the cleared table held none
    have hrefs : (g.clear_table t).strongRefsTo u = g.strongRefsTo u := by
      unfold Group.clear_table
      unfold Group.table? at htb
      rw [htb]
      have hset : ((g.fixRefsInto t fun _ => none).modifyTable t
          fun tb2 => { tb2 with rows := [] }).tables
          = (g.fixRefsInto t fun _ => none).tables.set t
            (Table.mk tb.tname tb.cols [] tb.nextId) := by
        unfold Group.modifyTable
        have : (g.fixRefsInto t fun _ => none).tables.get? t = some
            { tb with rows := tb.rows.map fun row =>
                { row with cells := fixRowCells tb.cols row.cells t fun _ => none } } := by
          have := fixRefsInto_table g t (fun _ => none) t
          unfold Group.table? at this
          rw [this, htb]
          rfl
        rw [this]
      unfold Group.strongRefsTo
      rw [hset]
      rw [flatMap_set_eq _ _ t _ ?_]
      · exact strongRefsTo_fixRefsInto_ne g t (fun _ => none) u hu
      · intro a ha
        have hga : (g.fixRefsInto t fun _ => none).table? t = some a := ha
        rw [fixRefsInto_table] at hga
        unfold Group.table? at hga
        rw [htb] at hga
        cases hga
        show Table.strongRefsTo _ u = Table.strongRefsTo _ u
        unfold Table.strongRefsTo
        have hl : ∀ rows : List Row,
            (rows.flatMap fun row => rowRefsTo tb.cols row.cells
              fun spec => spec.targetsStrong u) = [] := by
          intro rows
          apply List.flatMap_eq_nil_iff.mpr
          intro row _
          unfold rowRefsTo
          apply List.flatMap_eq_nil_iff.mpr
          intro sc hsc
          have := hOut sc.1 (List.of_mem_zip hsc).1 u
          simp [this]
        rw [hl []]
        show ([] : List Nat) = (tb.rows.map fun row =>
          { row with cells := fixRowCells tb.cols row.cells t fun _ => none }).flatMap
            fun row => rowRefsTo tb.cols row.cells fun spec => spec.targetsStrong u
        rw [List.flatMap_map]
        symm
        apply List.flatMap_eq_nil_iff.mpr
        intro row _
        show rowRefsTo tb.cols (fixRowCells tb.cols row.cells t fun _ => none) _ = []
        rw [rowRefsTo_fixRowCells_ne]
        · apply List.flatMap_eq_nil_iff.mpr
          intro sc hsc
          have := hOut sc.1 (List.of_mem_zip hsc).1 u
          simp [this]
        · intro spec hsp
          by_cases hsp2 : spec.targets t = true
          · exfalso
            exact hu (ColSpec.targets_unique spec u t
              (ColSpec.targetsStrong_targets _ _ hsp) hsp2)
          · exact Bool.not_eq_true _ ▸ hsp2
    have hid : ∀ x, (g.clear_table t).idAt u x = g.idAt u x := by
      intro x
      unfold Group.clear_table
      unfold Group.table? at htb
      rw [htb]
      rw [idAt_modifyTable_ne _ _ _ _ _ hu, idAt_fixRefsInto]
    unfold Group.idStrongRefCount
    rw [hrefs]
    congr 1
    apply List.filterMap_congr
    intro x _
    exact hid x

/-- Reading a fixed row cell at a column that exists. -/
theorem fixRowCells_get (cols : List ColSpec) (cells : List Value) (t : Nat)
    (fix : Nat → Option Nat) (c : Nat) (spec : ColSpec) (v : Value)
    (hc : cols.get? c = some spec) (hv : cells.get? c = some v) :
    (fixRowCells cols cells t fix).get? c
      = some (if spec.targets t then fixValue fix v else v) := by
  unfold fixRowCells
  rw [List.get?_map]
  have hz : (cols.zip cells).get? c = some (spec, v) := by
    rw [List.get?_eq_getElem?]
    rw [List.get?_eq_getElem?] at hc hv
    exact List.getElem?_zip_eq_some.mpr ⟨hc, hv⟩
  rw [hz]
  rfl

/-- Reading a fixed row cell where no cell existed. -/
theorem fixRowCells_get_none (cols : List ColSpec) (cells : List Value) (t : Nat)
    (fix : Nat → Option Nat) (c : Nat) (hv : cells.get? c = none) :
    (fixRowCells cols cells t fix).get? c = none := by
  unfold fixRowCells
  rw [List.get?_map]
  have hz : (cols.zip cells).get? c = none := by
    rw [List.get?_eq_getElem?]
    rw [List.get?_eq_getElem?] at hv
    apply List.getElem?_eq_none
    have hlen := List.getElem?_eq_none_iff.mp hv
    rw [List.length_zip]
    omega
  rw [hz]
  rfl

/-- Cell values of an uncleared table after a clear: references into the
cleared table are dropped, everything else is unchanged. -/
theorem cellAt_clear_table_ne (g : Group) (t o c r : Nat) (tb tbo : Table) (spec : ColSpec)
    (htb : g.table? t = some tb) (hne : o ≠ t)
    (ho : g.table? o = some tbo) (hc : tbo.cols.get? c = some spec) :
    (g.clear_table t).cellAt o c r
      = (g.cellAt o c r).map fun v =>
          if spec.targets t then fixValue (fun _ => none) v else v := by
  unfold Group.cellAt
  rw [clear_table_table_ne g t o tb htb hne, ho]
  simp only [Option.map_some, Option.map_some', Option.some_bind]
  rw [hc]
  simp only [Option.some_bind]
  rw [List.get?_map]
  cases hrow : tbo.rows.get? r with
  | none => rfl
  | some row =>
    simp only [Option.map_some, Option.map_some', Option.some_bind]
    cases hcell : row.cells.get? c with
    | none =>
      rw [fixRowCells_get_none tbo.cols row.cells t _ c hcell]
      rfl
    | some v =>
      rw [fixRowCells_get tbo.cols row.cells t _ c spec v hc hcell]
      rfl

/-- Under the C7 premises applying `Clear` is exactly the clear store
primitive: the cascade engine finds no candidate. -/
theorem applyInstr_clear_eq (g : Group) (t : Nat) (tb : Table)
    (htb : g.table? t = some tb)
    (hIn : ∀ o c spec, g.colSpec? o c = some spec → spec.targets t = true →
      spec.strength = Strength.weak)
    (hOut : ∀ spec ∈ tb.cols, ∀ u, spec.targetsStrong u = false) :
    g.applyInstr (.clearTable t) = g.clear_table t := by
  have hm : g.mutateRaw (.clearTable t) = g.clear_table t := rfl
  have hcands : g.instrCands (.clearTable t) = [] := by
    unfold Group.instrCands
    rw [show Instr.noCascade (.clearTable t) = false from rfl]
    simp only [Bool.false_eq_true, if_false]
    rw [hm]
    exact lostRefCands_of_counts_eq g (g.clear_table t)
      (idStrongRefCount_clear_eq g t tb htb hIn hOut)
  unfold Group.applyInstr
  rw [hm, hcands, cascadeF_of_skip_none]
  rfl

/-- C7 (amended) — for every table T that is the target of only Weak
Link/LinkList columns AND that itself holds no Strong Link/LinkList
column, `Clear(T)` empties T, nullifies every forward Link cell into T,
removes every LinkList entry into T, deletes no row of any other table,
and leaves every cell of a column not targeting T (in tables other than
T) unchanged. -/
theorem clear_weak_target_frame (g : Group) (tIdx : Nat) (tb : Table)
    (htb : g.table? tIdx = some tb)
    (hIn : ∀ o c spec, g.colSpec? o c = some spec → spec.targets tIdx = true →
      spec.strength = Strength.weak)
    (hOut : ∀ spec ∈ tb.cols, ∀ u, spec.targetsStrong u = false) :
    (g.applyInstr (.clearTable tIdx)).rowCount tIdx = some 0 ∧
    (∀ o, o ≠ tIdx → (g.applyInstr (.clearTable tIdx)).rowCount o = g.rowCount o) ∧
    (∀ o c r spec, o ≠ tIdx → g.colSpec? o c = some spec → spec.targets tIdx = true →
      (∀ old, g.cellAt o c r = some (.linkV old) →
        (g.applyInstr (.clearTable tIdx)).cellAt o c r = some (.linkV none)) ∧
      (∀ xs, g.cellAt o c r = some (.listV xs) →
        (g.applyInstr (.clearTable tIdx)).cellAt o c r = some (.listV []))) ∧
    (∀ o c r spec, o ≠ tIdx → g.colSpec? o c = some spec → spec.targets tIdx = false →
      (g.applyInstr (.clearTable tIdx)).cellAt o c r = g.cellAt o c r) := by
  rw [applyInstr_clear_eq g tIdx tb htb hIn hOut]
  refine ⟨?_, ?_, ?_, ?_⟩
  · unfold Group.rowCount
    rw [clear_table_table_self g tIdx tb htb]
    rfl
  · intro o hne
    unfold Group.rowCount
    rw [clear_table_table_ne g tIdx o tb htb hne]
    cases g.table? o <;> simp
  · intro o c r spec hne hcs htg
    obtain ⟨tbo, ho, hc⟩ : ∃ tbo, g.table? o = some tbo ∧ tbo.cols.get? c = some spec := by
      unfold Group.colSpec? at hcs
      obtain ⟨tbo, ho, hc⟩ := Option.bind_eq_some.mp hcs
      exact ⟨tbo, ho, hc⟩
    constructor
    · intro old hcell
      rw [cellAt_clear_table_ne g tIdx o c r tb tbo spec htb hne ho hc, hcell]
      cases old <;> simp [htg, fixValue]
    · intro xs hcell
      rw [cellAt_clear_table_ne g tIdx o c r tb tbo spec htb hne ho hc, hcell]
      simp [htg, fixValue]
  · intro o c r spec hne hcs htg
    obtain ⟨tbo, ho, hc⟩ : ∃ tbo, g.table? o = some tbo ∧ tbo.cols.get? c = some spec := by
      unfold Group.colSpec? at hcs
      obtain ⟨tbo, ho, hc⟩ := Option.bind_eq_some.mp hcs
      exact ⟨tbo, ho, hc⟩
    rw [cellAt_clear_table_ne g tIdx o c r tb tbo spec htb hne ho hc]
    rw [htg]
    cases g.cellAt o c r <;> simp

/-- C7 counterexample to the claim as stated: in `demoStrongOutGroup`
every column targeting table 0 is Weak (the only such column is
`U.back`, a Weak Link; the bounds are certified by the column and table
counts), table `U` holds one row, yet applying `Clear` to table 0
deletes that row of `U` — a row of a table other than the cleared one
is deleted, because the cleared rows held a Strong reference. -/
theorem clear_weak_target_counterexample :
    (∀ o, o < 2 → ∀ c, c < 1 →
      ((demoStrongOutGroup.colSpec? o c).all fun spec =>
        !spec.targets 0 || spec.strength == Strength.weak) = true) ∧
    demoStrongOutGroup.tables.length = 2 ∧
    demoStrongOutGroup.colCount 0 = some 1 ∧
    demoStrongOutGroup.colCount 1 = some 1 ∧
    demoStrongOutGroup.rowCount 1 = some 1 ∧
    (demoStrongOutGroup.applyInstr (.clearTable 0)).rowCount 1 = some 0 := by
  decide

/-- A looked-up column specification is a column of some table. -/
theorem colSpec?_mem (g : Group) (o c : Nat) (spec : ColSpec)
    (h : g.colSpec? o c = some spec) : spec ∈ g.tables.flatMap Table.cols := by
  unfold Group.colSpec? Group.table? at h
  obtain ⟨tbo, ho, hc⟩ := Option.bind_eq_some.mp h
  exact List.mem_flatMap.mpr ⟨tbo, List.get?_mem ho, List.get?_mem hc⟩

/-- C7 witness: clearing the weak-only target store empties the cleared
table, keeps the other table's row count, and nullifies the weak link
into it. -/
theorem clear_weak_target_frame_witness :
    (demoWeakGroup.applyInstr (.clearTable 1)).rowCount 1 = some 0 ∧
    (demoWeakGroup.applyInstr (.clearTable 1)).rowCount 0 = some 1 ∧
    (demoWeakGroup.applyInstr (.clearTable 1)).cellAt 0 0 0 = some (.linkV none) := by
  have hmem : ∀ spec ∈ demoWeakGroup.tables.flatMap Table.cols,
      spec.targets 1 = true → spec.strength = Strength.weak := by decide
  have h := clear_weak_target_frame demoWeakGroup 1
    (Table.mk "target" [ColSpec.mk "t_1" DataType.intType false Strength.weak]
      [Row.mk 0 [Value.intV 0]] 1)
    (by decide)
    (fun o c spec hcs htg => hmem spec (colSpec?_mem demoWeakGroup o c spec hcs) htg)
    (by
      intro spec hm u
      simp only [List.mem_singleton] at hm
      subst hm
      rfl)
  refine ⟨h.1, h.2.1 0 (by decide), ?_⟩
  exact (h.2.2.1 0 0 0 (ColSpec.mk "o_1" (DataType.linkType 1) false Strength.weak)
    (by decide) (by decide) (by decide)).1 (some 0) (by decide)

/-- Instructions that suppress the cascade engine apply as their bare
store mutation. -/
theorem applyInstr_noCascade (g : Group) (i : Instr) (h : i.noCascade = true) :
    g.applyInstr i = g.mutateRaw i := by
  have hcands : g.instrCands i = [] := by
    unfold Group.instrCands
    rw [h]
    rfl
  unfold Group.applyInstr
  rw [hcands, cascadeF_of_skip_none]
  rfl

/-- Erasing the only column of a table reduces to the column removal
followed by the row purge and the drop of every reference into it. -/
theorem erase_column_last_eq (g : Group) (tIdx : Nat) (tb : Table) (spec0 : ColSpec)
    (htb : g.table? tIdx = some tb) (hone : tb.cols = [spec0]) :
    g.erase_column tIdx 0 =
      ((g.modifyTable tIdx fun tb2 =>
        { tb2 with
          cols := tb2.cols.eraseIdx 0,
          rows := tb2.rows.map fun row =>
            { row with cells := row.cells.eraseIdx 0 } }).fixRefsInto
        tIdx fun _ => none).modifyTable tIdx fun tb2 => { tb2 with rows := [] } := by
  unfold Group.erase_column
  unfold Group.table? at htb
  simp only [htb, hone]
  rfl

/-- Shape of a table after its last column is erased: no columns, no
rows (spec §3 invariant 4). -/
theorem erase_last_table_self (g : Group) (tIdx : Nat) (tb : Table) (spec0 : ColSpec)
    (htb : g.table? tIdx = some tb) (hone : tb.cols = [spec0]) :
    (g.erase_column tIdx 0).table? tIdx = some (Table.mk tb.tname [] [] tb.nextId) := by
  rw [erase_column_last_eq g tIdx tb spec0 htb hone]
  have h1 : (g.modifyTable tIdx fun tb2 =>
      { tb2 with
        cols := tb2.cols.eraseIdx 0,
        rows := tb2.rows.map fun row =>
          { row with cells := row.cells.eraseIdx 0 } }).table? tIdx
      = some { tb with
               cols := tb.cols.eraseIdx 0,
               rows := tb.rows.map fun row =>
                 { row with cells := row.cells.eraseIdx 0 } } :=
    modifyTable_table_self g tIdx _ tb htb
  have h2 := fixRefsInto_table (g.modifyTable tIdx fun tb2 =>
    { tb2 with
      cols := tb2.cols.eraseIdx 0,
      rows := tb2.rows.map fun row =>
        { row with cells := row.cells.eraseIdx 0 } }) tIdx (fun _ => none) tIdx
  rw [h1] at h2
  have h3 := modifyTable_table_self _ tIdx (fun tb2 => { tb2 with rows := [] }) _ h2
  rw [h3, hone]
  rfl

/-- Shape of the other tables after a last-column erase: rows kept,
references into the emptied table dropped. -/
theorem erase_last_table_ne (g : Group) (tIdx o : Nat) (tb : Table) (spec0 : ColSpec)
    (htb : g.table? tIdx = some tb) (hone : tb.cols = [spec0]) (hne : o ≠ tIdx) :
    (g.erase_column tIdx 0).table? o = (g.table? o).map fun tbo =>
      { tbo with rows := tbo.rows.map fun row =>
          { row with cells := fixRowCells tbo.cols row.cells tIdx fun _ => none } } := by
  rw [erase_column_last_eq g tIdx tb spec0 htb hone]
  rw [modifyTable_table_ne _ tIdx o _ hne, fixRefsInto_table,
    modifyTable_table_ne _ tIdx o _ hne]

/-- Cell values of a table whose rows survived while references into
table `t` were dropped. -/
theorem cellAt_of_fixmap (g2 g : Group) (t o c r : Nat) (tbo : Table) (spec : ColSpec)
    (ho : g.table? o = some tbo)
    (h2 : g2.table? o = (g.table? o).map fun tbo =>
      { tbo with rows := tbo.rows.map fun row =>
          { row with cells := fixRowCells tbo.cols row.cells t fun _ => none } })
    (hc : tbo.cols.get? c = some spec) :
    g2.cellAt o c r = (g.cellAt o c r).map fun v =>
      if spec.targets t then fixValue (fun _ => none) v else v := by
  unfold Group.cellAt
  rw [h2, ho]
  simp only [Option.map_some, Option.map_some', Option.some_bind]
  rw [hc]
  simp only [Option.some_bind]
  rw [List.get?_map]
  cases hrow : tbo.rows.get? r with
  | none => rfl
  | some row =>
    simp only [Option.map_some, Option.map_some', Option.some_bind]
    cases hcell : row.cells.get? c with
    | none =>
      rw [fixRowCells_get_none tbo.cols row.cells t _ c hcell]
      rfl
    | some v =>
      rw [fixRowCells_get tbo.cols row.cells t _ c spec v hc hcell]
      rfl

/-- C6 — erasing the only column of a table leaves it with zero columns
and zero rows; every Link cell of another table that pointed into it
becomes null and every LinkList entry pointing into it is removed,
while the row counts of all other tables are unchanged. -/
theorem erase_last_column_empties_table (g : Group) (tIdx : Nat) (tb : Table)
    (spec0 : ColSpec) (htb : g.table? tIdx = some tb) (hone : tb.cols = [spec0]) :
    (g.applyInstr (.eraseColumn tIdx 0)).colCount tIdx = some 0 ∧
    (g.applyInstr (.eraseColumn tIdx 0)).rowCount tIdx = some 0 ∧
    (∀ o, o ≠ tIdx → (g.applyInstr (.eraseColumn tIdx 0)).rowCount o = g.rowCount o) ∧
    (∀ o c r spec, o ≠ tIdx → g.colSpec? o c = some spec → spec.targets tIdx = true →
      (∀ old, g.cellAt o c r = some (.linkV old) →
        (g.applyInstr (.eraseColumn tIdx 0)).cellAt o c r = some (.linkV none)) ∧
      (∀ xs, g.cellAt o c r = some (.listV xs) →
        (g.applyInstr (.eraseColumn tIdx 0)).cellAt o c r = some (.listV []))) := by
  have happly : g.applyInstr (.eraseColumn tIdx 0) = g.erase_column tIdx 0 :=
    applyInstr_noCascade g _ rfl
  rw [happly]
  refine ⟨?_, ?_, ?_, ?_⟩
  · unfold Group.colCount
    rw [erase_last_table_self g tIdx tb spec0 htb hone]
    rfl
  · unfold Group.rowCount
    rw [erase_last_table_self g tIdx tb spec0 htb hone]
    rfl
  · intro o hne
    unfold Group.rowCount
    rw [erase_last_table_ne g tIdx o tb spec0 htb hone hne]
    cases g.table? o <;> simp
  · intro o c r spec hne hcs htg
    obtain ⟨tbo, ho, hc⟩ : ∃ tbo, g.table? o = some tbo ∧ tbo.cols.get? c = some spec := by
      unfold Group.colSpec? at hcs
      obtain ⟨tbo, ho, hc⟩ := Option.bind_eq_some.mp hcs
      exact ⟨tbo, ho, hc⟩
    have hcell2 := cellAt_of_fixmap (g.erase_column tIdx 0) g tIdx o c r tbo spec ho
      (erase_last_table_ne g tIdx o tb spec0 htb hone hne) hc
    constructor
    · intro old hcell
      rw [hcell2, hcell]
      cases old <;> simp [htg, fixValue]
    · intro xs hcell
      rw [hcell2, hcell]
      simp [htg, fixValue]

/-- C6 witness: erasing the only (Int) column of `target` in the
concrete link store empties `target`, keeps both `origin` rows, and
nullifies the links that pointed into `target`. -/
theorem erase_last_column_empties_table_witness :
    (demoLinkGroup.applyInstr (.eraseColumn 1 0)).colCount 1 = some 0 ∧
    (demoLinkGroup.applyInstr (.eraseColumn 1 0)).rowCount 1 = some 0 ∧
    (demoLinkGroup.applyInstr (.eraseColumn 1 0)).rowCount 0 = some 2 ∧
    (demoLinkGroup.applyInstr (.eraseColumn 1 0)).cellAt 0 0 0 = some (.linkV none) := by
  have h := erase_last_column_empties_table demoLinkGroup 1
    (Table.mk "target" [ColSpec.mk "t_1" DataType.intType false Strength.weak]
      [Row.mk 0 [Value.intV 0], Row.mk 1 [Value.intV 0]] 2)
    (ColSpec.mk "t_1" DataType.intType false Strength.weak)
    (by decide) (by decide)
  refine ⟨h.1, h.2.1, h.2.2.1 0 (by decide), ?_⟩
  exact (h.2.2.2 0 0 0 (ColSpec.mk "o_1" (DataType.linkType 1) false Strength.strong)
    (by decide) (by decide) (by decide)).1 (some 0) (by decide)

/-- Overwriting one position is, as a multiset, dropping that position
and adding the new element. -/
theorem set_perm {α : Type} (b : α) :
    ∀ (l : List α) (r : Nat), r < l.length → (l.set r b).Perm (b :: l.eraseIdx r) := by
  intro l
  induction l with
  | nil => intro r h; simp at h
  | cons x l ih =>
    intro r h
    cases r with
    | zero => simp
    | succ r =>
      have hr : r < l.length := by simpa using h
      show (x :: l.set r b).Perm (b :: x :: l.eraseIdx r)
      exact ((ih r hr).cons x).trans (List.Perm.swap b x (l.eraseIdx r))

/-- A list is, as a multiset, any one of its elements plus the rest. -/
theorem get_cons_eraseIdx_perm {α : Type} :
    ∀ (l : List α) (r : Nat) (a : α), l.get? r = some a → l.Perm (a :: l.eraseIdx r) := by
  intro l
  induction l with
  | nil => intro r a h; cases h
  | cons x l ih =>
    intro r a h
    cases r with
    | zero => cases h; simp
    | succ r =>
      have hr : l.get? r = some a := h
      show (x :: l).Perm (a :: x :: l.eraseIdx r)
      exact ((ih r a hr).cons x).trans (List.Perm.swap a x (l.eraseIdx r))

/-- Move-last-over is, as a multiset, the removal of the chosen row. -/
theorem mloRows_perm : ∀ (rows : List Row) (r : Nat), r < rows.length →
    (mloRows rows r).Perm (rows.eraseIdx r) := by
  intro rows
  induction rows using List.reverseRecOn with
  | nil => intro r h; simp at h
  | append_singleton ys b _ =>
    intro r h
    unfold mloRows
    rw [List.getLast?_concat]
    show (if r < (ys ++ [b]).length then ((ys ++ [b]).set r b).dropLast
      else ys ++ [b]).Perm ((ys ++ [b]).eraseIdx r)
    rw [if_pos h]
    by_cases hr : r < ys.length
    · have hset : (ys ++ [b]).set r b = ys.set r b ++ [b] := by
        rw [List.set_append_left]
        exact hr
      rw [hset, List.dropLast_concat, List.eraseIdx_append_of_lt_length hr]
      exact ((set_perm b ys r hr).trans
        (List.perm_append_singleton b (ys.eraseIdx r)).symm)
    · have hre : r = ys.length := by
        rw [List.length_append] at h
        simp at h
        omega
      subst hre
      have hset : (ys ++ [b]).set ys.length b = ys ++ [b] := by
        rw [List.set_append_right _ _ le_rfl]
        simp
      rw [hset, List.dropLast_concat, List.eraseIdx_append_of_length_le le_rfl]
      simp

/-- Move-last-over removes exactly one row. -/
theorem mloRows_length (rows : List Row) (r : Nat) (h : r < rows.length) :
    (mloRows rows r).length = rows.length - 1 := by
  rw [(mloRows_perm rows r h).length_eq, List.length_eraseIdx]
  simp [h]

/-- Erasing an index commutes with mapping. -/
theorem map_eraseIdx {α β : Type} (f : α → β) :
    ∀ (l : List α) (i : Nat), (l.eraseIdx i).map f = (l.map f).eraseIdx i := by
  intro l
  induction l with
  | nil => intro i; rfl
  | cons x l ih =>
    intro i
    cases i with
    | zero => rfl
    | succ i => simp [List.eraseIdx_cons_succ, ih]

/-- The id search fails exactly when the id is absent. -/
theorem findIdxOfId_eq_none_iff (ρ : Nat) :
    ∀ l : List Row, findIdxOfId ρ l = none ↔ ρ ∉ l.map Row.rid := by
  intro l
  induction l with
  | nil => simp [findIdxOfId]
  | cons row l ih =>
    unfold findIdxOfId
    by_cases h : row.rid = ρ
    · simp [h]
    · simp only [h, if_false]
      constructor
      · intro hn
        have : findIdxOfId ρ l = none := by
          cases hf : findIdxOfId ρ l
          · rfl
          · rw [hf] at hn; cases hn
        simp [ih.mp this, Ne.symm h]
      · intro hn
        rw [List.map_cons, List.mem_cons] at hn
        push_neg at hn
        rw [ih.mpr hn.2]
        rfl

/-- A successful id search yields an in-range index holding the id. -/
theorem findIdxOfId_some (ρ : Nat) :
    ∀ (l : List Row) (i : Nat), findIdxOfId ρ l = some i →
      i < l.length ∧ (l.get? i).map Row.rid = some ρ := by
  intro l
  induction l with
  | nil => intro i h; cases h
  | cons row l ih =>
    intro i h
    unfold findIdxOfId at h
    by_cases hr : row.rid = ρ
    · rw [if_pos hr] at h
      cases h
      simp [hr]
    · rw [if_neg hr] at h
      cases hf : findIdxOfId ρ l with
      | none => rw [hf] at h; cases h
      | some j =>
        rw [hf] at h
        cases h
        obtain ⟨hlt, hget⟩ := ih j hf
        exact ⟨by simpa using hlt, by simpa using hget⟩

/-- Replacing a list entry whose image under `f` is the same multiset
permutes the flat image. -/
theorem flatMap_set_perm {α β : Type} (l : List α) (f : α → List β) (i : Nat) (b a2 : α)
    (h : l.get? i = some a2) (hperm : (f b).Perm (f a2)) :
    ((l.set i b).flatMap f).Perm (l.flatMap f) := by
  have hi : i < l.length := (List.get?_eq_some.mp h).1
  have h1 : ((l.set i b).flatMap f).Perm ((b :: l.eraseIdx i).flatMap f) :=
    List.Perm.flatMap_right f (set_perm b l i hi)
  have h2 : (l.flatMap f).Perm ((a2 :: l.eraseIdx i).flatMap f) :=
    List.Perm.flatMap_right f (get_cons_eraseIdx_perm l i a2 h)
  refine h1.trans (List.Perm.trans ?_ h2.symm)
  show ((f b) ++ (l.eraseIdx i).flatMap f).Perm ((f a2) ++ (l.eraseIdx i).flatMap f)
  exact hperm.append_right _

/-- A row none of whose cells holds references contributes no
references. -/
theorem rowRefsTo_nil_of_no_refs (cols : List ColSpec) (cells : List Value)
    (p : ColSpec → Bool) (h : ∀ v ∈ cells, cellRefs v = []) :
    rowRefsTo cols cells p = [] := by
  unfold rowRefsTo
  apply List.flatMap_eq_nil_iff.mpr
  intro sc hsc
  have := h sc.2 (List.of_mem_zip hsc).2
  simp [this]

/-- One table's reference contribution after a move-last-over of a row
that held no references is unchanged as a multiset. -/
theorem table_strongRefsTo_mlo_perm (tb : Table) (u r : Nat) (rowR : Row)
    (hr : tb.rows.get? r = some rowR)
    (hfresh : ∀ v ∈ rowR.cells, cellRefs v = []) :
    (Table.strongRefsTo { tb with rows := mloRows tb.rows r } u).Perm
      (tb.strongRefsTo u) := by
  have hlt : r < tb.rows.length := (List.get?_eq_some.mp hr).1
  show ((mloRows tb.rows r).flatMap fun row =>
    rowRefsTo tb.cols row.cells fun spec => spec.targetsStrong u).Perm
    (tb.rows.flatMap fun row => rowRefsTo tb.cols row.cells fun spec => spec.targetsStrong u)
  have h1 := List.Perm.flatMap_right
    (fun row => rowRefsTo tb.cols row.cells fun spec => spec.targetsStrong u)
    (mloRows_perm tb.rows r hlt)
  have h2 := List.Perm.flatMap_right
    (fun row => rowRefsTo tb.cols row.cells fun spec => spec.targetsStrong u)
    (get_cons_eraseIdx_perm tb.rows r rowR hr)
  refine h1.trans (List.Perm.trans ?_ h2.symm)
  show ((tb.rows.eraseIdx r).flatMap _).Perm
    (rowRefsTo tb.cols rowR.cells (fun spec => spec.targetsStrong u) ++
      (tb.rows.eraseIdx r).flatMap _)
  rw [rowRefsTo_nil_of_no_refs tb.cols rowR.cells _ hfresh]
  rfl

/-- Fixing references into a table no column targets changes no cell. -/
theorem fixRowCells_id (t : Nat) (fix : Nat → Option Nat) :
    ∀ (cols : List ColSpec) (cells : List Value),
      (∀ spec ∈ cols, spec.targets t = false) → cells.length = cols.length →
      fixRowCells cols cells t fix = cells := by
  intro cols
  induction cols with
  | nil =>
    intro cells _ hlen
    rw [List.length_nil, List.length_eq_zero] at hlen
    subst hlen
    rfl
  | cons spec cols ih =>
    intro cells hnt hlen
    cases cells with
    | nil => cases hlen
    | cons v cells =>
      show (if spec.targets t then fixValue fix v else v) ::
        fixRowCells cols cells t fix = v :: cells
      rw [hnt spec (List.mem_cons_self spec cols), if_neg (by simp)]
      rw [ih cells (fun s hs => hnt s (List.mem_cons_of_mem _ hs)) (by simpa using hlen)]

/-- Fixing references into a table no column of a well-formed store
targets is the identity. -/
theorem fixRefsInto_id (g : Group) (t : Nat) (fix : Nat → Option Nat)
    (hnt : ∀ o c spec, g.colSpec? o c = some spec → spec.targets t = false)
    (hWF : g.WF) : g.fixRefsInto t fix = g := by
  show (⟨g.tables.map fun tb =>
    { tb with rows := tb.rows.map fun row =>
        { row with cells := fixRowCells tb.cols row.cells t fix } }⟩ : Group) = g
  have hmap : (g.tables.map fun tb =>
      { tb with rows := tb.rows.map fun row =>
          { row with cells := fixRowCells tb.cols row.cells t fix } }) = g.tables := by
    rw [show g.tables = g.tables.map id from (List.map_id g.tables).symm]
    rw [List.map_map]
    apply List.map_congr_left
    intro tb htbm
    show { tb with rows := tb.rows.map fun row =>
      { row with cells := fixRowCells tb.cols row.cells t fix } } = tb
    have hrows : (tb.rows.map fun row =>
        { row with cells := fixRowCells tb.cols row.cells t fix }) = tb.rows := by
      rw [show tb.rows = tb.rows.map id from (List.map_id tb.rows).symm]
      rw [List.map_map]
      apply List.map_congr_left
      intro row hrowm
      show { row with cells := fixRowCells tb.cols row.cells t fix } = row
      have hcells : fixRowCells tb.cols row.cells t fix = row.cells := by
        apply fixRowCells_id
        · intro spec hs
          obtain ⟨o, ho⟩ := List.get?_of_mem htbm
          obtain ⟨c, hc⟩ := List.get?_of_mem hs
          exact hnt o c spec (by unfold Group.colSpec? Group.table?; rw [ho]; exact hc)
        · exact (hWF tb htbm).2.2 row hrowm
      rw [hcells]
    rw [hrows]
  rw [hmap]

/-- Column specifications survive a rows-only table modification. -/
theorem colSpec?_modifyTable_rows (g : Group) (t : Nat) (f : Table → Table)
    (hf : ∀ tb, (f tb).cols = tb.cols) (o c : Nat) :
    (g.modifyTable t f).colSpec? o c = g.colSpec? o c := by
  by_cases ho : o = t
  · subst ho
    cases htb : g.table? o with
    | none =>
      unfold Group.modifyTable
      unfold Group.table? at htb
      rw [htb]
    | some tb =>
      unfold Group.colSpec?
      rw [modifyTable_table_self g o f tb htb, htb, Option.some_bind, Option.some_bind,
        hf tb]
  · unfold Group.colSpec?
    rw [modifyTable_table_ne g t o f ho]

/-- Ghost ids at unchanged positions: writing one cell of one row keeps
every row id. -/
theorem idAt_setCell (g : Group) (t c r : Nat) (tb : Table) (v : Value)
    (htb : g.table? t = some tb) :
    ∀ u x, (Group.mk (g.tables.set t (tb.setCell c r v))).idAt u x = g.idAt u x := by
  intro u x
  unfold Group.idAt Group.table?
  by_cases hu : u = t
  · subst hu
    unfold Group.table? at htb
    have hlt : u < g.tables.length := (List.get?_eq_some.mp htb).1
    show ((g.tables.set u (tb.setCell c r v)).get? u).bind _ = (g.tables.get? u).bind _
    rw [htb]
    have : (g.tables.set u (tb.setCell c r v)).get? u = some (tb.setCell c r v) := by
      rw [List.get?_eq_getElem?]
      simp [List.getElem?_set_self, hlt]
    rw [this]
    show ((tb.setCell c r v).rows.get? x).map Row.rid = (tb.rows.get? x).map Row.rid
    unfold Table.setCell
    cases hrow : tb.rows.get? r with
    | none => rfl
    | some row =>
      show ((tb.rows.set r { row with cells := row.cells.set c v }).get? x).map Row.rid = _
      by_cases hx : x = r
      · subst hx
        have hlt2 : x < tb.rows.length := (List.get?_eq_some.mp hrow).1
        have : (tb.rows.set x { row with cells := row.cells.set c v }).get? x
            = some { row with cells := row.cells.set c v } := by
          rw [List.get?_eq_getElem?]
          simp [List.getElem?_set_self, hlt2]
        rw [this, hrow]
        rfl
      · have : (tb.rows.set r { row with cells := row.cells.set c v }).get? x
            = tb.rows.get? x := by
          rw [List.get?_eq_getElem?, List.get?_eq_getElem?,
            List.getElem?_set_ne (show r ≠ x from fun h => hx h.symm)]
        rw [this]
  · show ((g.tables.set t (tb.setCell c r v)).get? u).bind _ = (g.tables.get? u).bind _
    rw [List.get?_eq_getElem?, List.get?_eq_getElem?,
      List.getElem?_set_ne (show t ≠ u from fun h => hu h.symm)]

/-- An instruction whose mutation changes no Strong-reference count
applies without any cascade. -/
theorem applyInstr_of_counts_eq (g : Group) (i : Instr)
    (h : ∀ u ρ, (g.mutateRaw i).idStrongRefCount u ρ = g.idStrongRefCount u ρ) :
    g.applyInstr i = g.mutateRaw i := by
  have hcands : g.instrCands i = [] := by
    unfold Group.instrCands
    split
    · rfl
    · exact lostRefCands_of_counts_eq g _ h
  unfold Group.applyInstr
  rw [hcands, cascadeF_of_skip_none]
  rfl

/-- Move-last-over in a store where nothing targets the table reduces to
the bare row swap-and-truncate. -/
theorem move_last_over_reduce (g : Group) (t r : Nat) (tb : Table)
    (htb : g.table? t = some tb)
    (hnoin : ∀ o c spec, g.colSpec? o c = some spec → spec.targets t = false)
    (hWF : g.WF) :
    g.move_last_over t r
      = g.modifyTable t fun tb2 => { tb2 with rows := mloRows tb2.rows r } := by
  unfold Group.move_last_over
  unfold Group.table? at htb
  simp only [htb]
  rw [fixRefsInto_id g t _ hnoin hWF]

/-- Move-last-over of a reference-free row in a store where nothing
targets its table changes no Strong-reference count. -/
theorem idStrongRefCount_mlo_eq (g : Group) (t r : Nat) (tb : Table) (rowR : Row)
    (htb : g.table? t = some tb) (hrow : tb.rows.get? r = some rowR)
    (hnoin : ∀ o c spec, g.colSpec? o c = some spec → spec.targets t = false)
    (hWF : g.WF)
    (hfresh : ∀ v ∈ rowR.cells, cellRefs v = []) :
    ∀ u ρ, (g.move_last_over t r).idStrongRefCount u ρ = g.idStrongRefCount u ρ := by
  intro u ρ
  rw [move_last_over_reduce g t r tb htb hnoin hWF]
  have htbl : (g.modifyTable t fun tb2 => { tb2 with rows := mloRows tb2.rows r }).tables
      = g.tables.set t { tb with rows := mloRows tb.rows r } := by
    unfold Group.modifyTable
    unfold Group.table? at htb
    rw [htb]
  by_cases hu : u = t
  · subst hu
    have hweak : ∀ o c spec, g.colSpec? o c = some spec → spec.targets u = true →
        spec.strength = Strength.weak := fun o c spec hcs htg => by
      rw [hnoin o c spec hcs] at htg
      cases htg
    have hnil : g.strongRefsTo u = [] := strongRefsTo_weak_nil g u hweak
    have hnil2 : (g.modifyTable u fun tb2 =>
        { tb2 with rows := mloRows tb2.rows r }).strongRefsTo u = [] := by
      apply strongRefsTo_weak_nil
      intro o c spec hcs
      rw [colSpec?_modifyTable_rows g u
        (fun tb2 => { tb2 with rows := mloRows tb2.rows r }) (fun _ => rfl) o c] at hcs
      exact hweak o c spec hcs
    unfold Group.idStrongRefCount
    rw [hnil, hnil2]
    rfl
  · have hperm : ((g.modifyTable t fun tb2 =>
        { tb2 with rows := mloRows tb2.rows r }).strongRefsTo u).Perm
        (g.strongRefsTo u) := by
      unfold Group.strongRefsTo
      rw [htbl]
      unfold Group.table? at htb
      exact flatMap_set_perm g.tables (fun tb2 => tb2.strongRefsTo u) t _ tb htb
        (table_strongRefsTo_mlo_perm tb u r rowR hrow hfresh)
    have hid : ∀ x, (g.modifyTable t fun tb2 =>
        { tb2 with rows := mloRows tb2.rows r }).idAt u x = g.idAt u x :=
      fun x => idAt_modifyTable_ne g t _ u x hu
    unfold Group.idStrongRefCount
    have h1 : ((g.modifyTable t fun tb2 =>
        { tb2 with rows := mloRows tb2.rows r }).strongRefsTo u).filterMap
          ((g.modifyTable t fun tb2 =>
            { tb2 with rows := mloRows tb2.rows r }).idAt u)
        = ((g.modifyTable t fun tb2 =>
            { tb2 with rows := mloRows tb2.rows r }).strongRefsTo u).filterMap
          (g.idAt u) := List.filterMap_congr (fun x _ => hid x)
    rw [h1]
    exact (hperm.filterMap (g.idAt u)).count_eq ρ

/-- Zipping against a list with one position overwritten. -/
theorem zip_set_right {κ ν : Type} :
    ∀ (cols : List κ) (cells : List ν) (c : Nat) (spec : κ) (v : ν),
      cols.get? c = some spec →
      cols.zip (cells.set c v) = (cols.zip cells).set c (spec, v) := by
  intro cols
  induction cols with
  | nil => intro cells c spec v h; cases h
  | cons x cols ih =>
    intro cells c spec v h
    cases cells with
    | nil => rfl
    | cons y cells =>
      cases c with
      | zero =>
        cases h
        rfl
      | succ c =>
        show (x, y) :: cols.zip (cells.set c v) = ((x, y) :: cols.zip cells).set (c + 1) (spec, v)
        rw [ih cells c spec v h]
        rfl

/-- Overwriting a cell of a column the reference predicate rejects
leaves a row's selected references unchanged. -/
theorem rowRefsTo_set_nontarget (cols : List ColSpec) (cells : List Value) (c : Nat)
    (spec : ColSpec) (v : Value) (p : ColSpec → Bool)
    (hc : cols.get? c = some spec) (hp : p spec = false) :
    rowRefsTo cols (cells.set c v) p = rowRefsTo cols cells p := by
  unfold rowRefsTo
  rw [zip_set_right cols cells c spec v hc]
  cases hcell : (cols.zip cells).get? c with
  | none =>
    rw [List.set_eq_of_length_le]
    rw [List.get?_eq_getElem?] at hcell
    exact List.getElem?_eq_none_iff.mp hcell
  | some sc =>
    apply flatMap_set_eq _ _ c _
    intro a ha
    rw [hcell] at ha
    cases ha
    have hsc1 : sc.1 = spec := by
      rw [List.get?_eq_getElem?] at hcell
      have := (List.getElem?_zip_eq_some.mp hcell).1
      rw [List.get?_eq_getElem?] at hc
      rw [hc] at this
      cases this
      rfl
    simp [hp, hsc1]

/-- Writing a value into a cell of a column that targets no table
changes no Strong-reference count. -/
theorem idStrongRefCount_setCell_eq (g : Group) (t c r : Nat) (tb : Table)
    (spec : ColSpec) (v : Value)
    (htb : g.table? t = some tb) (hc : tb.cols.get? c = some spec)
    (hspec : ∀ u, spec.targets u = false) :
    ∀ u ρ, (Group.mk (g.tables.set t (tb.setCell c r v))).idStrongRefCount u ρ
      = g.idStrongRefCount u ρ := by
  intro u ρ
  have hrefs : (Group.mk (g.tables.set t (tb.setCell c r v))).strongRefsTo u
      = g.strongRefsTo u := by
    unfold Group.strongRefsTo
    show (g.tables.set t (tb.setCell c r v)).flatMap _ = _
    unfold Group.table? at htb
    apply flatMap_set_eq _ _ t _
    intro a ha
    rw [htb] at ha
    cases ha
    unfold Table.setCell
    cases hrow : tb.rows.get? r with
    | none => rfl
    | some row =>
      show Table.strongRefsTo
        { tb with rows := tb.rows.set r { row with cells := row.cells.set c v } } u
        = tb.strongRefsTo u
      unfold Table.strongRefsTo
      show (tb.rows.set r { row with cells := row.cells.set c v }).flatMap _ = _
      apply flatMap_set_eq _ _ r _
      intro a2 ha2
      rw [hrow] at ha2
      cases ha2
      show rowRefsTo tb.cols (row.cells.set c v) _ = rowRefsTo tb.cols row.cells _
      apply rowRefsTo_set_nontarget tb.cols row.cells c spec v _ hc
      unfold ColSpec.targetsStrong
      rw [hspec u]
      rfl
  unfold Group.idStrongRefCount
  rw [hrefs]
  congr 1
  apply List.filterMap_congr
  intro x _
  exact idAt_setCell g t c r tb v htb u x

/-- Every surviving row of a move-last-over is found at its old index,
except the former last row, which is found at the freed slot. -/
theorem mloRows_get_of_ne (rows : List Row) (r i : Nat) (rowI : Row)
    (hr : r < rows.length) (hi : rows.get? i = some rowI) (hne : i ≠ r) :
    (mloRows rows r).get? (if i = rows.length - 1 then r else i) = some rowI := by
  obtain ⟨last, hlast⟩ : ∃ last, rows.getLast? = some last := by
    rw [List.getLast?_eq_getElem?]
    exact ⟨rows.get ⟨rows.length - 1, by omega⟩, by
      rw [List.getElem?_eq_getElem (by omega)]; rfl⟩
  have hilen : i < rows.length := (List.get?_eq_some.mp hi).1
  unfold mloRows
  simp only [hlast]
  rw [if_pos hr]
  by_cases hi2 : i = rows.length - 1
  · rw [if_pos hi2]
    have hlastI : last = rowI := by
      rw [List.getLast?_eq_getElem?] at hlast
      rw [List.get?_eq_getElem?, hi2] at hi
      rw [hi] at hlast
      cases hlast
      rfl
    have hrlt : r < rows.length - 1 := by
      rcases Nat.lt_or_ge r (rows.length - 1) with h | h
      · exact h
      · exfalso; exact hne (by omega)
    rw [List.get?_eq_getElem?, List.getElem?_dropLast]
    rw [if_pos (by simpa using hrlt)]
    rw [List.getElem?_set_self (by omega), hlastI]
  · rw [if_neg hi2]
    have hilt : i < rows.length - 1 := by omega
    rw [List.get?_eq_getElem?, List.getElem?_dropLast]
    rw [if_pos (by simpa using hilt)]
    rw [List.getElem?_set_ne (show r ≠ i from fun h => hne h.symm)]
    rw [List.get?_eq_getElem?] at hi
    exact hi

/-- After move-last-over the removed row's ghost id is gone (ghost ids
are distinct). -/
theorem mloRows_id_gone (rows : List Row) (r : Nat) (rowR : Row)
    (hr : rows.get? r = some rowR) (hnd : (rows.map Row.rid).Nodup) :
    findIdxOfId rowR.rid (mloRows rows r) = none := by
  rw [findIdxOfId_eq_none_iff]
  have hlt := (List.get?_eq_some.mp hr).1
  intro hmem
  rw [((mloRows_perm rows r hlt).map Row.rid).mem_iff] at hmem
  rw [map_eraseIdx] at hmem
  have hmap : (rows.map Row.rid).get? r = some rowR.rid := by
    rw [List.get?_map, hr]; rfl
  have hp2 := get_cons_eraseIdx_perm (rows.map Row.rid) r rowR.rid hmap
  have hnd2 : (rowR.rid :: (rows.map Row.rid).eraseIdx r).Nodup := hp2.nodup hnd
  exact (List.nodup_cons.mp hnd2).1 hmem

/-- Reading a cell through the table and column facts. -/
theorem cellAt_reduce (g : Group) (t c : Nat) (tb : Table) (spec : ColSpec)
    (htb : g.table? t = some tb) (hc : tb.cols.get? c = some spec) (i : Nat) :
    g.cellAt t c i = (tb.rows.get? i).bind fun row => row.cells.get? c := by
  unfold Group.cellAt
  rw [htb]
  simp only [Option.some_bind]
  rw [hc]
  rfl

/-- C4 — the `set_<T>_unique` semantics: when another row of the column
already holds the value, that row is kept (with its existing cells) and
the just-inserted row is removed via move-last-over, shrinking the
table by one; when no other row holds the value, the cell is set and no
row is removed.  The hypotheses express the documented contract: the
written row is freshly inserted (its cells hold no references) and the
table is not a link target. -/
theorem set_unique_semantics
    (g : Group) (t c r : Nat) (tb : Table) (spec : ColSpec) (rowR : Row)
    (ins : Instr) (v : Value)
    (hins : (∃ n, ins = Instr.setIntUnique t c r n ∧ v = Value.intV n) ∨
            (∃ s, ins = Instr.setStringUnique t c r s ∧ v = Value.stringV s) ∨
            (ins = Instr.setNullUnique t c r ∧ v = Value.nullV))
    (hWF : g.WF)
    (htb : g.table? t = some tb)
    (hc : tb.cols.get? c = some spec)
    (hrow : tb.rows.get? r = some rowR)
    (hfits : g.valueFits spec v = true)
    (hnoin : ∀ o c2 spec2, g.colSpec? o c2 = some spec2 → spec2.targets t = false)
    (hfresh : ∀ w ∈ rowR.cells, cellRefs w = []) :
    ((∃ i, i < tb.rows.length ∧ i ≠ r ∧ g.cellAt t c i = some v) →
      (g.applyInstr ins).rowCount t = some (tb.rows.length - 1) ∧
      (g.applyInstr ins).indexOfId t rowR.rid = none ∧
      (∀ i rowI, i ≠ r → tb.rows.get? i = some rowI →
        ∃ j, ((g.applyInstr ins).table? t).bind (fun tb2 => tb2.rows.get? j) = some rowI) ∧
      (∀ o, o ≠ t → (g.applyInstr ins).rowCount o = g.rowCount o)) ∧
    ((∀ i, i < tb.rows.length → i ≠ r → ¬ g.cellAt t c i = some v) →
      (g.applyInstr ins).rowCount t = some tb.rows.length ∧
      (g.applyInstr ins).cellAt t c r = some v ∧
      (∀ c2 r2, c2 ≠ c ∨ r2 ≠ r → (g.applyInstr ins).cellAt t c2 r2 = g.cellAt t c2 r2) ∧
      (∀ o, o ≠ t → (g.applyInstr ins).rowCount o = g.rowCount o)) := by
  have hmut : g.mutateRaw ins = g.set_unique t c r v := by
    rcases hins with ⟨n, hI, hv⟩ | ⟨s2, hI, hv⟩ | ⟨hI, hv⟩ <;> subst hI <;> subst hv <;> rfl
  have hrlen : r < tb.rows.length := (List.get?_eq_some.mp hrow).1
  have hscalar : ∀ u, spec.targets u = false := by
    intro u
    rcases hins with ⟨n, _, hv⟩ | ⟨s2, _, hv⟩ | ⟨_, hv⟩ <;> subst hv <;>
      unfold Group.valueFits at hfits
    · have : spec.dtype = DataType.intType := by
        exact beq_iff_eq.mp hfits
      unfold ColSpec.targets
      rw [this]
    · have : spec.dtype = DataType.stringType := by
        exact beq_iff_eq.mp hfits
      unfold ColSpec.targets
      rw [this]
    · unfold ColSpec.targets
      cases hdt : spec.dtype <;> rw [hdt] at hfits <;> simp_all
  have hguard : (g.valueFits spec v && decide (r < tb.rows.length)) = true := by
    simp [hfits, hrlen]
  have hpred : ∀ i, ((i != r &&
      ((tb.rows.get? i).bind (fun row => row.cells.get? c) == some v)) = true)
      ↔ (i ≠ r ∧ g.cellAt t c i = some v) := by
    intro i
    rw [cellAt_reduce g t c tb spec htb hc i]
    simp
  have hWFt : tb.WF := by
    have htb2 : g.tables.get? t = some tb := htb
    exact hWF tb (List.get?_mem htb2)
  constructor
  · -- conflict: the just-inserted row is removed via move-last-over
    intro hconf
    obtain ⟨j, hj⟩ : ∃ j, (List.range tb.rows.length).find? (fun i => i != r &&
        ((tb.rows.get? i).bind (fun row => row.cells.get? c) == some v)) = some j := by
      cases hfind : (List.range tb.rows.length).find? (fun i => i != r &&
          ((tb.rows.get? i).bind (fun row => row.cells.get? c) == some v)) with
      | none =>
        exfalso
        obtain ⟨i, hi1, hi2, hi3⟩ := hconf
        exact absurd ((hpred i).mpr ⟨hi2, hi3⟩)
          (by simpa using List.find?_eq_none.mp hfind i (List.mem_range.mpr hi1))
      | some j => exact ⟨j, rfl⟩
    have hred : g.set_unique t c r v = g.move_last_over t r := by
      unfold Group.set_unique
      unfold Group.table? at htb
      simp only [htb, hc]
      rw [if_pos hguard, hj]
    have happ : g.applyInstr ins = g.move_last_over t r := by
      have hcnt := idStrongRefCount_mlo_eq g t r tb rowR htb hrow hnoin hWF hfresh
      rw [applyInstr_of_counts_eq g ins (fun u ρ => by rw [hmut, hred]; exact hcnt u ρ)]
      rw [hmut, hred]
    rw [happ, move_last_over_reduce g t r tb htb hnoin hWF]
    have hself := modifyTable_table_self g t
      (fun tb2 => { tb2 with rows := mloRows tb2.rows r }) tb htb
    refine ⟨?_, ?_, ?_, ?_⟩
    · unfold Group.rowCount
      rw [hself]
      show some (mloRows tb.rows r).length = _
      rw [mloRows_length tb.rows r hrlen]
    · unfold Group.indexOfId
      rw [hself]
      show findIdxOfId rowR.rid (mloRows tb.rows r) = none
      exact mloRows_id_gone tb.rows r rowR hrow hWFt.1
    · intro i rowI hne hi
      refine ⟨if i = tb.rows.length - 1 then r else i, ?_⟩
      rw [hself]
      show (mloRows tb.rows r).get? (if i = tb.rows.length - 1 then r else i) = some rowI
      exact mloRows_get_of_ne tb.rows r i rowI hrlen hi hne
    · intro o ho
      unfold Group.rowCount
      rw [modifyTable_table_ne g t o _ ho]
  · -- no conflict: the cell is set in place
    intro hnoconf
    have hfind : (List.range tb.rows.length).find? (fun i => i != r &&
        ((tb.rows.get? i).bind (fun row => row.cells.get? c) == some v)) = none := by
      apply List.find?_eq_none.mpr
      intro i hi
      intro hp
      obtain ⟨hne, hcell⟩ := (hpred i).mp hp
      exact hnoconf i (List.mem_range.mp hi) hne hcell
    have hred : g.set_unique t c r v = ⟨g.tables.set t (tb.setCell c r v)⟩ := by
      unfold Group.set_unique
      unfold Group.table? at htb
      simp only [htb, hc]
      rw [if_pos hguard, hfind]
    have happ : g.applyInstr ins = ⟨g.tables.set t (tb.setCell c r v)⟩ := by
      have hcnt := idStrongRefCount_setCell_eq g t c r tb spec v htb hc hscalar
      rw [applyInstr_of_counts_eq g ins (fun u ρ => by rw [hmut, hred]; exact hcnt u ρ)]
      rw [hmut, hred]
    rw [happ]
    have htlt : t < g.tables.length := by
      unfold Group.table? at htb
      exact (List.get?_eq_some.mp htb).1
    have hself : (Group.mk (g.tables.set t (tb.setCell c r v))).table? t
        = some (tb.setCell c r v) := by
      unfold Group.table?
      rw [List.get?_eq_getElem?]
      simp [List.getElem?_set_self, htlt]
    have hsetCell : tb.setCell c r v
        = { tb with rows := tb.rows.set r { rowR with cells := rowR.cells.set c v } } := by
      unfold Table.setCell
      rw [hrow]
    have hclen : c < rowR.cells.length := by
      rw [hWFt.2.2 rowR (List.get?_mem hrow)]
      exact (List.get?_eq_some.mp hc).1
    refine ⟨?_, ?_, ?_, ?_⟩
    · unfold Group.rowCount
      rw [hself, hsetCell]
      simp
    · unfold Group.cellAt
      rw [hself]
      simp only [Option.some_bind]
      rw [hsetCell]
      show (tb.cols.get? c).bind _ = some v
      rw [hc]
      simp only [Option.some_bind]
      show ((tb.rows.set r { rowR with cells := rowR.cells.set c v }).get? r).bind
        (fun row => row.cells.get? c) = some v
      rw [List.get?_eq_getElem?, List.getElem?_set_self hrlen]
      show (rowR.cells.set c v).get? c = some v
      rw [List.get?_eq_getElem?, List.getElem?_set_self hclen]
    · intro c2 r2 hne
      have hrows : (((tb.rows.set r { rowR with cells := rowR.cells.set c v }).get? r2).bind
            fun row => row.cells.get? c2)
          = ((tb.rows.get? r2).bind fun row => row.cells.get? c2) := by
        by_cases hr2 : r2 = r
        · subst hr2
          have hc2ne : c2 ≠ c := by
            rcases hne with h | h
            · exact h
            · exact absurd rfl h
          rw [List.get?_eq_getElem?, List.getElem?_set_self hrlen, hrow]
          simp only [Option.some_bind]
          show (rowR.cells.set c v).get? c2 = rowR.cells.get? c2
          rw [List.get?_eq_getElem?, List.get?_eq_getElem?,
            List.getElem?_set_ne (show c ≠ c2 from fun h => hc2ne h.symm)]
        · rw [List.get?_eq_getElem?,
            List.getElem?_set_ne (show r ≠ r2 from fun h => hr2 h.symm),
            ← List.get?_eq_getElem?]
      unfold Group.cellAt
      rw [hself, htb]
      simp only [Option.some_bind]
      rw [hsetCell]
      show ((tb.cols.get? c2).bind fun _ =>
          ((tb.rows.set r { rowR with cells := rowR.cells.set c v }).get? r2).bind
            fun row => row.cells.get? c2)
        = ((tb.cols.get? c2).bind fun _ =>
          (tb.rows.get? r2).bind fun row => row.cells.get? c2)
      simp only [hrows]
    · intro o ho
      unfold Group.rowCount Group.table?
      rw [List.get?_eq_getElem?, List.get?_eq_getElem?,
        List.getElem?_set_ne (show t ≠ o from fun h => ho h.symm)]

/-- C4 witness: in the `Replication_SetUnique` store (row 0 holds 123),
`set_int_unique` of 123 into row 1 removes row 1 (its ghost id is gone)
and shrinks the table to one row. -/
theorem set_unique_semantics_witness :
    (demoUniqueGroup.applyInstr (Instr.setIntUnique 0 0 1 123)).rowCount 0 = some 1 ∧
    (demoUniqueGroup.applyInstr (Instr.setIntUnique 0 0 1 123)).indexOfId 0 1 = none := by
  have h := set_unique_semantics demoUniqueGroup 0 0 1
      ⟨"table", [⟨"c1", .intType, false, .weak⟩],
        [⟨0, [.intV 123]⟩, ⟨1, [.intV 0]⟩], 2⟩
      ⟨"c1", .intType, false, .weak⟩ ⟨1, [.intV 0]⟩
      (Instr.setIntUnique 0 0 1 123) (.intV 123)
      (Or.inl ⟨123, rfl, rfl⟩)
      (by unfold Group.WF Table.WF; decide)
      rfl rfl rfl rfl
      (fun o c2 spec2 hsp => by
        have hmem := colSpec?_mem demoUniqueGroup o c2 spec2 hsp
        have hall : ∀ s ∈ demoUniqueGroup.tables.flatMap Table.cols,
            s.targets 0 = false := by decide
        exact hall spec2 hmem)
      (by decide)
  obtain ⟨hconf, _⟩ := h
  have hres := hconf ⟨0, by decide, by decide, rfl⟩
  exact ⟨hres.1, hres.2.1⟩

/-- flatMap respects sublists. -/
theorem flatMap_sublist {α β : Type} (f : α → List β) {l1 l2 : List α}
    (h : l1.Sublist l2) : (l1.flatMap f).Sublist (l2.flatMap f) := by
  induction h with
  | slnil => exact List.Sublist.refl _
  | cons a h2 ih =>
    rw [List.flatMap_cons]
    exact ih.trans (List.sublist_append_right _ _)
  | cons₂ a h2 ih =>
    rw [List.flatMap_cons, List.flatMap_cons]
    exact ih.append_left _

/-- Appending a common suffix preserves subpermutations. -/
theorem subperm_append_right {α : Type} {l1 l2 : List α} (c : List α)
    (h : l1.Subperm l2) : (l1 ++ c).Subperm (l2 ++ c) := by
  obtain ⟨l, hp, hs⟩ := h
  exact ⟨l ++ c, hp.append_right c, hs.append_right c⟩

/-- Mapping preserves subpermutations. -/
theorem subperm_map {α β : Type} (f : α → β) {l1 l2 : List α}
    (h : l1.Subperm l2) : (l1.map f).Subperm (l2.map f) := by
  obtain ⟨l, hp, hs⟩ := h
  exact ⟨l.map f, hp.map f, hs.map f⟩

/-- flatMap preserves subpermutations. -/
theorem flatMap_subperm {α β : Type} (f : α → List β) {l1 l2 : List α}
    (h : l1.Subperm l2) : (l1.flatMap f).Subperm (l2.flatMap f) := by
  obtain ⟨l, hp, hs⟩ := h
  exact ⟨l.flatMap f, List.Perm.flatMap_right f hp, flatMap_sublist f hs⟩

/-- filterMap preserves subpermutations. -/
theorem filterMap_subperm {α β : Type} (f : α → Option β) {l1 l2 : List α}
    (h : l1.Subperm l2) : (l1.filterMap f).Subperm (l2.filterMap f) := by
  obtain ⟨l, hp, hs⟩ := h
  exact ⟨l.filterMap f, hp.filterMap f, hs.filterMap f⟩

/-- Move-last-over on a row list yields a subpermutation of the rows. -/
theorem mloRows_subperm (rows : List Row) (r : Nat) : (mloRows rows r).Subperm rows := by
  by_cases h : r < rows.length
  · exact ⟨rows.eraseIdx r, (mloRows_perm rows r h).symm, List.eraseIdx_sublist rows r⟩
  · have hEq : mloRows rows r = rows := by
      unfold mloRows
      cases h2 : rows.getLast? with
      | none => rfl
      | some l2 => simp only [h2]; rw [if_neg h]
    rw [hEq]

/-- Replacing one element by one whose image is a subpermutation gives a
flatMap subpermutation. -/
theorem flatMap_set_subperm {α β : Type} (l : List α) (f : α → List β) (i : Nat)
    (b a2 : α) (h : l.get? i = some a2) (hsub : (f b).Subperm (f a2)) :
    ((l.set i b).flatMap f).Subperm (l.flatMap f) := by
  have hi : i < l.length := (List.get?_eq_some.mp h).1
  have h1 : ((l.set i b).flatMap f).Perm ((b :: l.eraseIdx i).flatMap f) :=
    List.Perm.flatMap_right f (set_perm b l i hi)
  have h2 : (l.flatMap f).Perm ((a2 :: l.eraseIdx i).flatMap f) :=
    List.Perm.flatMap_right f (get_cons_eraseIdx_perm l i a2 h)
  have h3 : ((b :: l.eraseIdx i).flatMap f).Subperm ((a2 :: l.eraseIdx i).flatMap f) := by
    rw [List.flatMap_cons, List.flatMap_cons]
    exact subperm_append_right _ hsub
  exact (h1.subperm.trans h3).trans h2.symm.subperm

/-- Move-last-over on one table's rows can only shrink the multiset of
Strong references into any table. -/
theorem strongRefsTo_modifyTable_mlo_subperm (g : Group) (t r u : Nat) :
    ((g.modifyTable t fun tb2 => { tb2 with rows := mloRows tb2.rows r }).strongRefsTo u).Subperm
      (g.strongRefsTo u) := by
  unfold Group.modifyTable
  cases htb : g.tables.get? t with
  | none => exact List.Subperm.refl _
  | some tb =>
    show ((Group.mk (g.tables.set t { tb with rows := mloRows tb.rows r })).strongRefsTo u).Subperm _
    unfold Group.strongRefsTo
    apply flatMap_set_subperm g.tables _ t _ tb htb
    show ((mloRows tb.rows r).flatMap fun row =>
      rowRefsTo tb.cols row.cells fun spec => spec.targetsStrong u).Subperm
        (tb.rows.flatMap fun row =>
      rowRefsTo tb.cols row.cells fun spec => spec.targetsStrong u)
    exact flatMap_subperm _ (mloRows_subperm tb.rows r)

/-- Counting after a filterMap that pointwise either agrees or drops. -/
theorem count_filterMap_le_of_pointwise {α β : Type} [DecidableEq β]
    (f h : α → Option β) (hfh : ∀ x, f x = h x ∨ f x = none) :
    ∀ (l : List α) (b : β), (l.filterMap f).count b ≤ (l.filterMap h).count b := by
  intro l
  induction l with
  | nil => intro b; exact Nat.le_refl 0
  | cons x l ih =>
    intro b
    rw [List.filterMap_cons, List.filterMap_cons]
    rcases hfh x with he | hn
    · rw [he]
      cases hhx : h x with
      | none => simp only [hhx]; exact ih b
      | some y =>
        simp only [hhx, List.count_cons]
        exact Nat.add_le_add (ih b) (Nat.le_refl _)
    · rw [hn]
      cases hhx : h x with
      | none => simp only [hhx]; exact ih b
      | some y =>
        simp only [hhx, List.count_cons]
        exact Nat.le_trans (ih b) (Nat.le_add_right _ _)

/-- The reference fix-up of move-last-over, composed with the ghost-id
lookup in the rebased rows, pointwise either reproduces the original
ghost-id lookup or yields nothing: rebasing never invents references. -/
theorem mloFix_rebase_pointwise (rows rowsf : List Row) (r : Nat)
    (hlen : rowsf.length = rows.length)
    (hrid : ∀ x, (rowsf.get? x).map Row.rid = (rows.get? x).map Row.rid) (x : Nat) :
    ((mloFix r rows.length x).bind fun y => ((mloRows rowsf r).get? y).map Row.rid)
        = ((rows.get? x).map Row.rid)
      ∨ ((mloFix r rows.length x).bind fun y => ((mloRows rowsf r).get? y).map Row.rid)
        = none := by
  unfold mloFix
  by_cases hxr : x = r
  · right; rw [if_pos hxr]; rfl
  · rw [if_neg hxr]
    by_cases hxn : x = rows.length - 1
    · subst hxn
      rw [if_pos rfl]
      by_cases hrn : r < rows.length
      · left
        simp only [Option.some_bind]
        have hn0 : 0 < rows.length := Nat.lt_of_le_of_lt (Nat.zero_le r) hrn
        have hrn1 : r < rows.length - 1 := by omega
        obtain ⟨lastf, hlastf⟩ : ∃ l2, rowsf.getLast? = some l2 := by
          rw [List.getLast?_eq_getElem?,
            List.getElem?_eq_getElem (show rowsf.length - 1 < rowsf.length by omega)]
          exact ⟨_, rfl⟩
        have hmlo : mloRows rowsf r = (rowsf.set r lastf).dropLast := by
          unfold mloRows
          simp only [hlastf]
          rw [if_pos (by omega)]
        rw [hmlo]
        rw [List.get?_eq_getElem?, List.getElem?_dropLast,
          if_pos (by simp only [List.length_set]; omega),
          List.getElem?_set_self (by omega)]
        have hlf : rowsf.get? (rows.length - 1) = some lastf := by
          rw [List.getLast?_eq_getElem?, hlen] at hlastf
          rw [List.get?_eq_getElem?]
          exact hlastf
        have hx := hrid (rows.length - 1)
        rw [hlf] at hx
        exact hx
      · right
        simp only [Option.some_bind]
        have hmlo : mloRows rowsf r = rowsf := by
          unfold mloRows
          cases h2 : rowsf.getLast? with
          | none => rfl
          | some l2 => simp only [h2]; rw [if_neg (by omega)]
        rw [hmlo]
        rw [List.get?_eq_getElem?, List.getElem?_eq_none (by omega)]
        rfl
    · rw [if_neg hxn]
      left
      simp only [Option.some_bind]
      by_cases hrn : r < rows.length
      · have hn0 : 0 < rows.length := Nat.lt_of_le_of_lt (Nat.zero_le r) hrn
        obtain ⟨lastf, hlastf⟩ : ∃ l2, rowsf.getLast? = some l2 := by
          rw [List.getLast?_eq_getElem?,
            List.getElem?_eq_getElem (show rowsf.length - 1 < rowsf.length by omega)]
          exact ⟨_, rfl⟩
        have hmlo : mloRows rowsf r = (rowsf.set r lastf).dropLast := by
          unfold mloRows
          simp only [hlastf]
          rw [if_pos (by omega)]
        rw [hmlo]
        by_cases hxlt : x < rows.length - 1
        · rw [List.get?_eq_getElem?, List.getElem?_dropLast,
            if_pos (by simp only [List.length_set]; omega),
            List.getElem?_set_ne (show r ≠ x from fun h2 => hxr h2.symm),
            ← List.get?_eq_getElem?]
          exact hrid x
        · rw [List.get?_eq_getElem?, List.getElem?_dropLast,
            if_neg (by simp only [List.length_set]; omega)]
          rw [List.get?_eq_getElem?, List.getElem?_eq_none (by omega)]
      · have hmlo : mloRows rowsf r = rowsf := by
          unfold mloRows
          cases h2 : rowsf.getLast? with
          | none => rfl
          | some l2 => simp only [h2]; rw [if_neg (by omega)]
        rw [hmlo]
        exact hrid x

/-- Move-last-over never increases any remaining incoming Strong count:
the cascade's deletions only ever remove references, they never create
one (spec §4.4). -/
theorem idStrongRefCount_mlo_le (g : Group) (t r : Nat) :
    ∀ u ρ, (g.move_last_over t r).idStrongRefCount u ρ ≤ g.idStrongRefCount u ρ := by
  intro u ρ
  unfold Group.move_last_over
  cases htb : g.tables.get? t with
  | none => exact Nat.le_refl _
  | some tb =>
    show ((g.fixRefsInto t (mloFix r tb.rows.length)).modifyTable t
        fun tb2 => { tb2 with rows := mloRows tb2.rows r }).idStrongRefCount u ρ
      ≤ g.idStrongRefCount u ρ
    have htbq : g.table? t = some tb := htb
    have hsub := strongRefsTo_modifyTable_mlo_subperm
      (g.fixRefsInto t (mloFix r tb.rows.length)) t r u
    have htbf : (g.fixRefsInto t (mloFix r tb.rows.length)).table? t
        = some { tb with rows := tb.rows.map fun row =>
            { row with cells := fixRowCells tb.cols row.cells t (mloFix r tb.rows.length) } } := by
      rw [fixRefsInto_table, htbq]
      rfl
    have hg't := modifyTable_table_self (g.fixRefsInto t (mloFix r tb.rows.length)) t
        (fun tb2 => { tb2 with rows := mloRows tb2.rows r }) _ htbf
    have hidtM : ∀ x, ((g.fixRefsInto t (mloFix r tb.rows.length)).modifyTable t
        fun tb2 => { tb2 with rows := mloRows tb2.rows r }).idAt t x
        = ((mloRows (tb.rows.map fun row =>
            { row with cells := fixRowCells tb.cols row.cells t (mloFix r tb.rows.length) }) r).get? x).map Row.rid := by
      intro x
      unfold Group.idAt
      rw [hg't]
      rfl
    have hidAtG : ∀ x, g.idAt t x = (tb.rows.get? x).map Row.rid := by
      intro x
      unfold Group.idAt
      rw [htbq]
      rfl
    by_cases hu : u = t
    · subst hu
      unfold Group.idStrongRefCount
      apply Nat.le_trans ((filterMap_subperm _ hsub).count_le ρ)
      rw [strongRefsTo_fixRefsInto_self]
      rw [List.filterMap_congr fun x _ => hidtM x]
      rw [List.filterMap_filterMap]
      rw [List.filterMap_congr fun x _ => hidAtG x]
      apply count_filterMap_le_of_pointwise
      intro x
      exact mloFix_rebase_pointwise tb.rows
        (tb.rows.map fun row =>
          { row with cells := fixRowCells tb.cols row.cells u (mloFix r tb.rows.length) }) r
        (List.length_map tb.rows _)
        (by
          intro y
          rw [List.get?_map]
          cases tb.rows.get? y <;> rfl) x
    · unfold Group.idStrongRefCount
      apply Nat.le_trans ((filterMap_subperm _ hsub).count_le ρ)
      rw [strongRefsTo_fixRefsInto_ne g t _ u hu]
      have hidAtM2 : ∀ x, ((g.fixRefsInto t (mloFix r tb.rows.length)).modifyTable t
          fun tb2 => { tb2 with rows := mloRows tb2.rows r }).idAt u x = g.idAt u x := by
        intro x
        rw [idAt_modifyTable_ne _ t _ u x hu, idAt_fixRefsInto]
      rw [List.filterMap_congr fun x _ => hidAtM2 x]

/-- The reference fix-up keeps a table well formed. -/
theorem fixTable_WF (tb : Table) (t : Nat) (fix : Nat → Option Nat) (h : tb.WF) :
    Table.WF { tb with rows := tb.rows.map fun row =>
      { row with cells := fixRowCells tb.cols row.cells t fix } } := by
  obtain ⟨h1, h2, h3⟩ := h
  refine ⟨?_, ?_, ?_⟩
  · show ((tb.rows.map fun row =>
      { row with cells := fixRowCells tb.cols row.cells t fix }).map Row.rid).Nodup
    rw [List.map_map]
    exact h1
  · intro ρ hρ
    rw [List.map_map] at hρ
    exact h2 ρ hρ
  · intro row hrow
    rw [List.mem_map] at hrow
    obtain ⟨row0, hrow0, hEq⟩ := hrow
    subst hEq
    show (fixRowCells tb.cols row0.cells t fix).length = tb.cols.length
    unfold fixRowCells
    rw [List.length_map, List.length_zip, h3 row0 hrow0]
    exact Nat.min_self _

/-- Move-last-over on the row list keeps a table well formed. -/
theorem Table_WF_mloRows (tb : Table) (r : Nat) (h : tb.WF) :
    Table.WF { tb with rows := mloRows tb.rows r } := by
  obtain ⟨h1, h2, h3⟩ := h
  have hsub : (mloRows tb.rows r).Subperm tb.rows := mloRows_subperm tb.rows r
  have hsubm : ((mloRows tb.rows r).map Row.rid).Subperm (tb.rows.map Row.rid) :=
    subperm_map Row.rid hsub
  refine ⟨?_, ?_, ?_⟩
  · obtain ⟨l, hp, hs⟩ := hsubm
    exact hp.nodup (List.Nodup.sublist hs h1)
  · intro ρ hρ
    exact h2 ρ (hsubm.subset hρ)
  · intro row hrow
    exact h3 row (hsub.subset hrow)

/-- Replacing one table by a well-formed image keeps the group well
formed. -/
theorem WF_modifyTable (g : Group) (t : Nat) (f : Table → Table)
    (hf : ∀ tb, tb.WF → (f tb).WF) (hWF : g.WF) : (g.modifyTable t f).WF := by
  unfold Group.modifyTable
  cases htb : g.tables.get? t with
  | none => exact hWF
  | some tb =>
    intro tb2 htb2
    rcases List.mem_or_eq_of_mem_set htb2 with hmem | hEq
    · exact hWF tb2 hmem
    · rw [hEq]
      exact hf tb (hWF tb (List.get?_mem htb))

/-- The reference fix-up keeps the group well formed. -/
theorem WF_fixRefsInto (g : Group) (t : Nat) (fix : Nat → Option Nat) (hWF : g.WF) :
    (g.fixRefsInto t fix).WF := by
  intro tb2 htb2
  have hmem : tb2 ∈ g.tables.map fun tb0 => { tb0 with rows := tb0.rows.map fun row =>
      { row with cells := fixRowCells tb0.cols row.cells t fix } } := htb2
  rw [List.mem_map] at hmem
  obtain ⟨tb0, h0, hEq⟩ := hmem
  subst hEq
  exact fixTable_WF tb0 t fix (hWF tb0 h0)

/-- Move-last-over keeps the group well formed. -/
theorem WF_mlo (g : Group) (t r : Nat) (hWF : g.WF) : (g.move_last_over t r).WF := by
  unfold Group.move_last_over
  cases htb : g.tables.get? t with
  | none => exact hWF
  | some tb =>
    exact WF_modifyTable _ t _ (fun tb2 h2 => Table_WF_mloRows tb2 r h2)
      (WF_fixRefsInto g t _ hWF)

/-- A row that is gone stays gone through any move-last-over: rows are
only ever deleted, never recreated. -/
theorem indexOfId_none_mlo (g : Group) (tm rm t ρ : Nat)
    (h : g.indexOfId t ρ = none) : (g.move_last_over tm rm).indexOfId t ρ = none := by
  unfold Group.move_last_over
  cases htbm : g.tables.get? tm with
  | none => exact h
  | some tbm =>
    show ((g.fixRefsInto tm (mloFix rm tbm.rows.length)).modifyTable tm
        fun tb2 => { tb2 with rows := mloRows tb2.rows rm }).indexOfId t ρ = none
    unfold Group.indexOfId at h ⊢
    by_cases ht : t = tm
    · subst ht
      have htbf : (g.fixRefsInto t (mloFix rm tbm.rows.length)).table? t
          = some { tbm with rows := tbm.rows.map fun row =>
              { row with cells := fixRowCells tbm.cols row.cells t (mloFix rm tbm.rows.length) } } := by
        rw [fixRefsInto_table]
        show (g.tables.get? t).map _ = _
        rw [htbm]
        rfl
      rw [modifyTable_table_self _ t _ _ htbf]
      simp only [Option.some_bind]
      rw [findIdxOfId_eq_none_iff]
      have h2 : findIdxOfId ρ tbm.rows = none := by
        have hq : g.table? t = some tbm := htbm
        rw [hq] at h
        exact h
      rw [findIdxOfId_eq_none_iff] at h2
      intro hmem
      apply h2
      have hsubm := subperm_map Row.rid (mloRows_subperm (tbm.rows.map fun row =>
          { row with cells := fixRowCells tbm.cols row.cells t (mloFix rm tbm.rows.length) }) rm)
      have hmem2 := hsubm.subset hmem
      rw [List.map_map] at hmem2
      exact hmem2
    · rw [modifyTable_table_ne _ tm t _ ht, fixRefsInto_table]
      cases hq : g.table? t with
      | none => rfl
      | some tbt =>
        rw [hq] at h
        simp only [Option.some_bind] at h
        simp only [Option.map_some', Option.some_bind]
        rw [findIdxOfId_eq_none_iff] at h ⊢
        show ρ ∉ (tbt.rows.map _).map Row.rid
        rw [List.map_map]
        exact h

/-- The cascade engine with no fuel leaves the state alone. -/
theorem cascadeF_zero (g : Group) (wl : List (Nat × Nat)) :
    Group.cascadeF 0 g wl = (g, []) := by
  unfold Group.cascadeF
  cases hskip : g.cascadeSkip wl with
  | none => rfl
  | some q =>
    obtain ⟨t1, ρ1, r1, wl2⟩ := q
    simp only [hskip]

/-- The cascade engine stops when no worklist entry is actionable. -/
theorem cascadeF_none (fuel : Nat) (g : Group) (wl : List (Nat × Nat))
    (hskip : g.cascadeSkip wl = none) : Group.cascadeF fuel g wl = (g, []) := by
  unfold Group.cascadeF
  simp only [hskip]

/-- One step of the cascade engine: delete the scheduled row and
continue on the remaining worklist plus the newly broken rows. -/
theorem cascadeF_succ (fuel : Nat) (g : Group) (wl wl2 : List (Nat × Nat)) (t1 ρ1 r1 : Nat)
    (hskip : g.cascadeSkip wl = some (t1, ρ1, r1, wl2)) :
    Group.cascadeF (fuel + 1) g wl
      = ((Group.cascadeF fuel (g.move_last_over t1 r1)
            (wl2 ++ g.lostRefCands (g.move_last_over t1 r1))).1,
         (g, t1, ρ1) :: (Group.cascadeF fuel (g.move_last_over t1 r1)
            (wl2 ++ g.lostRefCands (g.move_last_over t1 r1))).2) := by
  conv_lhs => unfold Group.cascadeF
  simp only [hskip]

/-- A row that is gone stays gone through a whole cascade run. -/
theorem indexOfId_none_cascadeF :
    ∀ (fuel : Nat) (g : Group) (wl : List (Nat × Nat)) (t ρ : Nat),
      g.indexOfId t ρ = none → (Group.cascadeF fuel g wl).1.indexOfId t ρ = none := by
  intro fuel
  induction fuel with
  | zero =>
    intro g wl t ρ h
    rw [cascadeF_zero]
    exact h
  | succ fuel ih =>
    intro g wl t ρ h
    cases hskip : g.cascadeSkip wl with
    | none =>
      rw [cascadeF_none _ _ _ hskip]
      exact h
    | some q =>
      obtain ⟨t1, ρ1, r1, wl2⟩ := q
      rw [cascadeF_succ fuel g wl wl2 t1 ρ1 r1 hskip]
      exact ih _ _ t ρ (indexOfId_none_mlo g t1 r1 t ρ h)

/-- What the sweep schedules is real: the row exists and its remaining
incoming Strong count, re-taken on the current state, is zero. -/
theorem cascadeSkip_sound (g : Group) :
    ∀ (wl : List (Nat × Nat)) (t1 ρ1 r1 : Nat) (wl2 : List (Nat × Nat)),
      g.cascadeSkip wl = some (t1, ρ1, r1, wl2) →
      g.indexOfId t1 ρ1 = some r1 ∧ g.idStrongRefCount t1 ρ1 = 0 := by
  intro wl
  induction wl with
  | nil =>
    intro t1 ρ1 r1 wl2 h
    simp [Group.cascadeSkip] at h
  | cons p wl ih =>
    intro t1 ρ1 r1 wl2 h
    obtain ⟨t0, ρ0⟩ := p
    unfold Group.cascadeSkip at h
    cases hidx : g.indexOfId t0 ρ0 with
    | none =>
      simp only [hidx] at h
      exact ih t1 ρ1 r1 wl2 h
    | some r0 =>
      simp only [hidx] at h
      by_cases hc : g.idStrongRefCount t0 ρ0 = 0
      · rw [if_pos hc] at h
        simp only [Option.some.injEq, Prod.mk.injEq] at h
        obtain ⟨h1, h2, h3, h4⟩ := h
        subst h1
        subst h2
        subst h3
        exact ⟨hidx, hc⟩
      · rw [if_neg hc] at h
        exact ih t1 ρ1 r1 wl2 h

/-- The sweep never scans past an actionable entry: it returns either
that entry itself or an earlier one, keeping the entry in the remaining
worklist. -/
theorem cascadeSkip_mem (g : Group) :
    ∀ (wl : List (Nat × Nat)) (t ρ r : Nat),
      (t, ρ) ∈ wl → g.indexOfId t ρ = some r → g.idStrongRefCount t ρ = 0 →
      ∃ t1 ρ1 r1 wl2, g.cascadeSkip wl = some (t1, ρ1, r1, wl2) ∧
        ((t1 = t ∧ ρ1 = ρ) ∨ (t, ρ) ∈ wl2) := by
  intro wl
  induction wl with
  | nil =>
    intro t ρ r hmem
    exact absurd hmem (List.not_mem_nil _)
  | cons p wl ih =>
    intro t ρ r hmem hidx hcount
    obtain ⟨t0, ρ0⟩ := p
    unfold Group.cascadeSkip
    cases hidx0 : g.indexOfId t0 ρ0 with
    | none =>
      simp only [hidx0]
      have hmem2 : (t, ρ) ∈ wl := by
        rcases List.mem_cons.mp hmem with hEq | hmem2
        · exfalso
          rw [show t = t0 from congrArg Prod.fst hEq,
            show ρ = ρ0 from congrArg Prod.snd hEq] at hidx
          rw [hidx0] at hidx
          cases hidx
        · exact hmem2
      exact ih t ρ r hmem2 hidx hcount
    | some r0 =>
      simp only [hidx0]
      by_cases hc0 : g.idStrongRefCount t0 ρ0 = 0
      · rw [if_pos hc0]
        refine ⟨t0, ρ0, r0, wl, rfl, ?_⟩
        rcases List.mem_cons.mp hmem with hEq | hmem2
        · left
          exact ⟨(congrArg Prod.fst hEq).symm, (congrArg Prod.snd hEq).symm⟩
        · right
          exact hmem2
      · rw [if_neg hc0]
        have hmem2 : (t, ρ) ∈ wl := by
          rcases List.mem_cons.mp hmem with hEq | hmem2
          · exfalso
            apply hc0
            rw [← show t = t0 from congrArg Prod.fst hEq,
              ← show ρ = ρ0 from congrArg Prod.snd hEq]
            exact hcount
          · exact hmem2
        exact ih t ρ r hmem2 hidx hcount

/-- A row that is present forces a positive total row count. -/
theorem totalRows_indexOfId_pos (g : Group) (t ρ r : Nat)
    (h : g.indexOfId t ρ = some r) : 0 < g.totalRows := by
  unfold Group.indexOfId at h
  cases htbq : g.table? t with
  | none => rw [htbq] at h; cases h
  | some tb =>
    rw [htbq] at h
    simp only [Option.some_bind] at h
    have hr := (findIdxOfId_some ρ tb.rows r h).1
    have htb : g.tables.get? t = some tb := htbq
    have hmem : tb.rows.length ∈ g.tables.map fun tb2 => tb2.rows.length := by
      rw [List.mem_map]
      exact ⟨tb, List.get?_mem htb, rfl⟩
    unfold Group.totalRows
    have hle := List.single_le_sum (fun x _ => Nat.zero_le x) _ hmem
    omega

/-- Strictly shrinking one element strictly shrinks the mapped sum. -/
theorem sum_map_set_lt {α : Type} (f : α → Nat) (l : List α) (i : Nat) (b a2 : α)
    (h : l.get? i = some a2) (hlt : f b < f a2) :
    ((l.set i b).map f).sum < (l.map f).sum := by
  have hi : i < l.length := (List.get?_eq_some.mp h).1
  have h1 : ((l.set i b).map f).sum = ((b :: l.eraseIdx i).map f).sum :=
    ((set_perm b l i hi).map f).sum_eq
  have h2 : (l.map f).sum = ((a2 :: l.eraseIdx i).map f).sum :=
    ((get_cons_eraseIdx_perm l i a2 h).map f).sum_eq
  rw [h1, h2]
  simp only [List.map_cons, List.sum_cons]
  omega

/-- The reference fix-up moves no rows. -/
theorem totalRows_fixRefsInto (g : Group) (t : Nat) (fix : Nat → Option Nat) :
    (g.fixRefsInto t fix).totalRows = g.totalRows := by
  unfold Group.totalRows
  show ((g.tables.map fun (tb0 : Table) =>
      ({ tb0 with rows := tb0.rows.map fun row =>
          ({ row with cells := fixRowCells tb0.cols row.cells t fix } : Row) } : Table)).map
        fun tb => tb.rows.length).sum = _
  rw [List.map_map]
  congr 1
  apply List.map_congr_left
  intro tb0 _
  show (tb0.rows.map _).length = tb0.rows.length
  rw [List.length_map]

/-- Deleting a present row strictly decreases the total row count. -/
theorem totalRows_mlo (g : Group) (t ρ r : Nat) (h : g.indexOfId t ρ = some r) :
    (g.move_last_over t r).totalRows < g.totalRows := by
  unfold Group.indexOfId at h
  cases htbq : g.table? t with
  | none => rw [htbq] at h; cases h
  | some tb =>
    rw [htbq] at h
    simp only [Option.some_bind] at h
    have hr := (findIdxOfId_some ρ tb.rows r h).1
    have htb : g.tables.get? t = some tb := htbq
    unfold Group.move_last_over
    simp only [htb]
    rw [← totalRows_fixRefsInto g t (mloFix r tb.rows.length)]
    have hget : (g.fixRefsInto t (mloFix r tb.rows.length)).tables.get? t
        = some { tb with rows := tb.rows.map fun row =>
            { row with cells := fixRowCells tb.cols row.cells t (mloFix r tb.rows.length) } } := by
      show (g.tables.map _).get? t = _
      rw [List.get?_map, htb]
      rfl
    unfold Group.modifyTable
    simp only [hget]
    unfold Group.totalRows
    apply sum_map_set_lt (fun tb2 => tb2.rows.length) _ t _ _ hget
    show (mloRows (tb.rows.map _) r).length < (tb.rows.map _).length
    rw [mloRows_length _ r (by rw [List.length_map]; exact hr), List.length_map]
    omega

/-- Move-last-over at a row's current index removes that ghost id. -/
theorem mlo_kills (g : Group) (t ρ r : Nat) (hWF : g.WF)
    (hidx : g.indexOfId t ρ = some r) :
    (g.move_last_over t r).indexOfId t ρ = none := by
  unfold Group.indexOfId at hidx
  cases htbq : g.table? t with
  | none => rw [htbq] at hidx; cases hidx
  | some tb =>
    rw [htbq] at hidx
    simp only [Option.some_bind] at hidx
    have htb : g.tables.get? t = some tb := htbq
    obtain ⟨hrlt, hrid⟩ := findIdxOfId_some ρ tb.rows r hidx
    obtain ⟨rowR, hrowR⟩ : ∃ rowR, tb.rows.get? r = some rowR := by
      cases hq : tb.rows.get? r with
      | none => rw [hq] at hrid; cases hrid
      | some rowR => exact ⟨rowR, rfl⟩
    have hρrid : rowR.rid = ρ := by
      rw [hrowR] at hrid
      exact Option.some.inj hrid
    unfold Group.move_last_over
    simp only [htb]
    unfold Group.indexOfId
    have htbf : (g.fixRefsInto t (mloFix r tb.rows.length)).table? t
        = some { tb with rows := tb.rows.map fun row =>
            { row with cells := fixRowCells tb.cols row.cells t (mloFix r tb.rows.length) } } := by
      rw [fixRefsInto_table, htbq]
      rfl
    rw [modifyTable_table_self _ t _ _ htbf]
    simp only [Option.some_bind]
    have hrowf : (tb.rows.map fun row =>
        { row with cells := fixRowCells tb.cols row.cells t (mloFix r tb.rows.length) }).get? r
        = some { rowR with cells := fixRowCells tb.cols rowR.cells t (mloFix r tb.rows.length) } := by
      rw [List.get?_map, hrowR]
      rfl
    have hnd : ((tb.rows.map fun row =>
        { row with cells := fixRowCells tb.cols row.cells t (mloFix r tb.rows.length) }).map
          Row.rid).Nodup := by
      rw [List.map_map]
      exact (hWF tb (List.get?_mem htb)).1
    have hgone := mloRows_id_gone _ r _ hrowf hnd
    rw [← hρrid]
    exact hgone

/-- The cascade invariant: a worklist row whose remaining incoming
Strong count is zero is gone once the engine finishes, given enough
fuel.  Counts never grow during the run (move-last-over only removes
references), so the entry stays actionable until it is processed. -/
theorem cascade_kills :
    ∀ (fuel : Nat) (g : Group) (wl : List (Nat × Nat)) (t ρ : Nat),
      g.WF → g.totalRows ≤ fuel → (t, ρ) ∈ wl → g.idStrongRefCount t ρ = 0 →
      (Group.cascadeF fuel g wl).1.indexOfId t ρ = none := by
  intro fuel
  induction fuel with
  | zero =>
    intro g wl t ρ hWF hfuel hmem hcount
    rw [cascadeF_zero]
    cases hidx : g.indexOfId t ρ with
    | none => rfl
    | some r =>
      exfalso
      have := totalRows_indexOfId_pos g t ρ r hidx
      omega
  | succ fuel ih =>
    intro g wl t ρ hWF hfuel hmem hcount
    cases hidx : g.indexOfId t ρ with
    | none => exact indexOfId_none_cascadeF (fuel + 1) g wl t ρ hidx
    | some r =>
      obtain ⟨t1, ρ1, r1, wl2, hskip, hor⟩ := cascadeSkip_mem g wl t ρ r hmem hidx hcount
      obtain ⟨hidx1, hcount1⟩ := cascadeSkip_sound g wl t1 ρ1 r1 wl2 hskip
      have hWF2 : (g.move_last_over t1 r1).WF := WF_mlo g t1 r1 hWF
      have hfuel2 : (g.move_last_over t1 r1).totalRows ≤ fuel := by
        have := totalRows_mlo g t1 ρ1 r1 hidx1
        omega
      rw [cascadeF_succ fuel g wl wl2 t1 ρ1 r1 hskip]
      rcases hor with ⟨ht1, hρ1⟩ | hmem2
      · subst ht1
        subst hρ1
        exact indexOfId_none_cascadeF fuel _ _ t1 ρ1 (mlo_kills g t1 ρ1 r1 hWF hidx1)
      · have hcount2 : (g.move_last_over t1 r1).idStrongRefCount t ρ = 0 := by
          have hle := idStrongRefCount_mlo_le g t1 r1 t ρ
          omega
        exact ih _ _ t ρ hWF2 hfuel2 (List.mem_append_left _ hmem2) hcount2

/-- Every deletion the cascade engine logs is performed on a row whose
remaining incoming Strong count, in the state the deletion runs in, is
zero: the cascade never deletes a still-referenced row. -/
theorem cascadeLog_entries_dead :
    ∀ (fuel : Nat) (g : Group) (wl : List (Nat × Nat)),
      ∀ e ∈ (Group.cascadeF fuel g wl).2, e.1.idStrongRefCount e.2.1 e.2.2 = 0 := by
  intro fuel
  induction fuel with
  | zero =>
    intro g wl e he
    rw [cascadeF_zero] at he
    cases he
  | succ fuel ih =>
    intro g wl e he
    cases hskip : g.cascadeSkip wl with
    | none =>
      rw [cascadeF_none _ _ _ hskip] at he
      cases he
    | some q =>
      obtain ⟨t1, ρ1, r1, wl2⟩ := q
      rw [cascadeF_succ fuel g wl wl2 t1 ρ1 r1 hskip] at he
      rcases List.mem_cons.mp he with hEq | hmem
      · subst hEq
        exact (cascadeSkip_sound g wl t1 ρ1 r1 wl2 hskip).2
      · exact ih _ _ e hmem

/-- A present row whose count dropped is an initial cascade candidate. -/
theorem lostRefCands_mem (g g2 : Group) (t ρ : Nat) (tb : Table)
    (htb : g.tables.get? t = some tb) (hρ : ρ ∈ tb.rows.map Row.rid)
    (hdrop : g2.idStrongRefCount t ρ < g.idStrongRefCount t ρ) :
    (t, ρ) ∈ g.lostRefCands g2 := by
  unfold Group.lostRefCands
  rw [List.mem_flatMap]
  refine ⟨t, List.mem_range.mpr (List.get?_eq_some.mp htb).1, ?_⟩
  simp only [htb]
  rw [List.mem_map]
  refine ⟨ρ, ?_, rfl⟩
  rw [List.mem_filter]
  exact ⟨hρ, decide_eq_true hdrop⟩

/-- C2 — Strong-ownership cascade invariants.  For a row `ρ` of table
`t`: when applying an instruction (any cascade-triggering operation;
`EraseColumn` is the only suppressed one) removes the last incoming
Strong reference to the row — its recount on the raw mutation is zero
and strictly below its old count — the row is no longer present once
the operation, cascade included, completes.  Conversely, every row the
cascade engine deletes had a zero remaining incoming Strong count in
the state its deletion was performed in. -/
theorem strong_cascade_invariants (g : Group) (i : Instr) (t ρ : Nat) (tb : Table)
    (hWF2 : (g.mutateRaw i).WF)
    (hnc : i.noCascade = false)
    (htb : g.table? t = some tb)
    (hρ : ρ ∈ tb.rows.map Row.rid)
    (hlast : (g.mutateRaw i).idStrongRefCount t ρ = 0)
    (hdrop : (g.mutateRaw i).idStrongRefCount t ρ < g.idStrongRefCount t ρ) :
    (g.applyInstr i).indexOfId t ρ = none ∧
    ∀ e ∈ g.cascadeLog i, e.1.idStrongRefCount e.2.1 e.2.2 = 0 := by
  constructor
  · unfold Group.applyInstr
    apply cascade_kills ((g.mutateRaw i).totalRows) (g.mutateRaw i) _ t ρ hWF2
      (Nat.le_refl _) ?_ hlast
    rw [show g.instrCands i = g.lostRefCands (g.mutateRaw i) from by
      unfold Group.instrCands
      rw [hnc]
      simp]
    exact lostRefCands_mem g (g.mutateRaw i) t ρ tb htb hρ hdrop
  · intro e he
    exact cascadeLog_entries_dead ((g.mutateRaw i).totalRows) (g.mutateRaw i)
      (g.instrCands i) e he

/-- C2 witness: in the `CascadeRemove_ColumnLink` store, nullifying
`origin[1].link` removes the last Strong reference to `target`'s row of
ghost id 1, and the cascade deletes that row. -/
theorem strong_cascade_invariants_witness :
    (demoLinkGroup.applyInstr (Instr.nullifyLink 0 0 1)).indexOfId 1 1 = none :=
  (strong_cascade_invariants demoLinkGroup (Instr.nullifyLink 0 0 1) 1 1
    ⟨"target", [⟨"t_1", .intType, false, .weak⟩],
      [⟨0, [.intV 0]⟩, ⟨1, [.intV 0]⟩], 2⟩
    (by unfold Group.WF Table.WF; decide)
    rfl rfl (by decide) (by decide) (by decide)).1

end Repl

end TightDB
